import Mathlib

/-!
Shallow embedding of the dimandocs retrieval pipeline (Go) in Lean 4,
with theorems checking the natural-language specification against it.

Strings are modelled as `List Char`.  The Go code mixes byte lengths
(`len`) and rune counts (`utf8.RuneCountInString`); both are modelled as
the character count, which is exact for ASCII input (all concrete inputs
used below are ASCII).  Durations are modelled in seconds as `Nat`.
-/

set_option maxRecDepth 100000

/-- Strings as lists of characters. -/
abbrev Str := List Char

/-- Embedding vectors.  Their float entries are opaque to every claim, so
they are modelled with integer entries. -/
abbrev Vec := List Int

namespace chunking

/-- Whitespace as trimmed by Go `strings.TrimSpace` (ASCII part of
`unicode.IsSpace`). -/
def goIsSpace (c : Char) : Bool :=
  c = ' ' || c = '\t' || c = '\n' || c = '\x0b' || c = '\x0c' || c = '\r'

/-- Whitespace matched by `\s` in Go regular expressions
(`[\t\n\f\r ]`). -/
def reIsSpace (c : Char) : Bool :=
  c = ' ' || c = '\t' || c = '\n' || c = '\x0c' || c = '\r'

/-- `strings.TrimSpace`, left half. -/
def trimLeft (s : Str) : Str := s.dropWhile goIsSpace

/-- `strings.TrimSpace`, right half. -/
def trimRight (s : Str) : Str := (s.reverse.dropWhile goIsSpace).reverse

/-- Go `strings.TrimSpace`. -/
def trimSpace (s : Str) : Str := trimRight (trimLeft s)

/-- `DefaultMaxChunkSize` from the chunking package. -/
def DefaultMaxChunkSize : Int := 1500

/-- `DefaultOverlapSize` from the chunking package. -/
def DefaultOverlapSize : Int := 150

/-- `MinChunkSize` from the chunking package. -/
def MinChunkSize : Nat := 100

/-- `chunking.Chunk`. -/
structure Chunk where
  Index : Nat
  Text : Str
  SectionTitle : Str
  StartOffset : Int
  EndOffset : Int
deriving DecidableEq, Repr

/-- `chunking.Options`. -/
structure Options where
  MaxChunkSize : Int
  OverlapSize : Int
deriving DecidableEq, Repr

/-- `chunking.DefaultOptions`. -/
def DefaultOptions : Options := ⟨DefaultMaxChunkSize, DefaultOverlapSize⟩

/-- `getOverlapText`: the length subtracted for the overlap offset. -/
def getOverlapText (text : Str) (overlapSize : Int) : Int :=
  if (text.length : Int) ≤ overlapSize then (text.length : Int) else overlapSize

/-- Index of the last occurrence of `c` in `l`. -/
def lastIdxOf (c : Char) (l : Str) : Option Nat :=
  match l.reverse.findIdx? (· = c) with
  | some k => some (l.length - 1 - k)
  | none => none

/-- `getLastNChars`: last `n` characters of `s`, breaking at a word
boundary (first space of the tail window) when that break point lies in
the first half of the window.  When `s` is no longer than `n`, `s`
itself is returned. -/
def getLastNChars (s : Str) (n : Int) : Str :=
  if (s.length : Int) ≤ n then s
  else
    let start : Nat := s.length - n.toNat
    let substr := s.drop start
    match substr.findIdx? (· = ' ') with
    | some idx => if idx < substr.length / 2 then substr.drop (idx + 1) else substr
    | none => substr

/-- Leftmost-first match of the regular expression `\n\s*\n` at the head
of `l`: if it matches, returns the remainder after the (greedy) match.
The greedy `\s*` makes the match end at the last newline inside the
maximal whitespace run following the leading newline. -/
def matchBlankSep : Str → Option Str
  | '\n' :: rest =>
    match lastIdxOf '\n' (rest.takeWhile reIsSpace) with
    | some p => some (rest.drop (p + 1))
    | none => none
  | _ => none

theorem matchBlankSep_length {l rem : Str} (h : matchBlankSep l = some rem) :
    rem.length < l.length := by
  unfold matchBlankSep at h
  split at h
  · next rest =>
    rcases hfind : lastIdxOf '\n' (rest.takeWhile reIsSpace) with _ | p
    · rw [hfind] at h
      exact absurd h (by simp)
    · rw [hfind] at h
      simp only [Option.some.injEq] at h
      subst h
      simp only [List.length_cons, List.length_drop]
      omega
  · exact absurd h (by simp)

/-- `regexp.Split` of the text on `\n\s*\n` (the scanning loop of
`splitIntoParagraphs`): splits at each successive leftmost match.  The
`fuel` argument makes the recursion structural; it bounds the length of
the remaining input (each step strictly shortens it, see
`matchBlankSep_length`), so with `fuel = l.length` the zero-fuel branch
is never reached. -/
def splitBlankAux (acc : Str) : Nat → Str → List Str
  | _, [] => [acc.reverse]
  | 0, _ :: _ => [acc.reverse]
  | fuel + 1, c :: rest =>
    match matchBlankSep (c :: rest) with
    | some rem => acc.reverse :: splitBlankAux [] fuel rem
    | none => splitBlankAux (c :: acc) fuel rest

/-- `splitIntoParagraphs`: split on blank lines, trim each part and drop
empty parts. -/
def splitIntoParagraphs (text : Str) : List Str :=
  ((splitBlankAux [] text.length text).map trimSpace).filter (· ≠ [])

/-- The blank-line separator written between packed paragraphs. -/
def nl2 : Str := ['\n', '\n']

/-- The state of the paragraph-packing loop in `splitLargeSection`. -/
structure PackState where
  chunks : List Chunk
  chunkIndex : Nat
  currentOffset : Int
  chunkStart : Int
  buffer : Str
deriving Repr

/-- The close step of the packing loop: trim the buffer, emit it as a
chunk when it reaches `MinChunkSize`, and start the next buffer with the
overlap seed when the overlap is positive and the closed text is
strictly longer than it. -/
def closeChunk (title : Str) (ov : Int) (s : PackState) : PackState :=
  let chunkText := trimSpace s.buffer
  let s1 := if MinChunkSize ≤ chunkText.length then
      { s with
        chunks := s.chunks ++
          [⟨s.chunkIndex, chunkText, title, s.chunkStart, s.currentOffset⟩],
        chunkIndex := s.chunkIndex + 1 }
    else s
  let newStart := s.currentOffset - getOverlapText chunkText ov
  let newBuf : Str :=
    if 0 < ov ∧ ov < (chunkText.length : Int) then getLastNChars chunkText ov ++ nl2
    else []
  { s1 with buffer := newBuf, chunkStart := newStart }

/-- One iteration of the packing loop of `splitLargeSection`: close the
buffer when adding the paragraph would exceed `maxSize`, then append the
paragraph and a blank line. -/
def packStep (title : Str) (maxSize ov : Int) (s : PackState) (para : Str) : PackState :=
  let paraLen := para.length
  let currentLen := s.buffer.length
  let s1 := if 0 < currentLen ∧ maxSize < (currentLen : Int) + paraLen + 2 then
      closeChunk title ov s
    else s
  { s1 with buffer := s1.buffer ++ para ++ nl2,
            currentOffset := s1.currentOffset + paraLen + 2 }

/-- The final close after the packing loop (`// Don't forget the last
chunk`). -/
def finalClose (title : Str) (s : PackState) : List Chunk :=
  let chunkText := trimSpace s.buffer
  if MinChunkSize ≤ chunkText.length then
    s.chunks ++ [⟨s.chunkIndex, chunkText, title, s.chunkStart, s.currentOffset⟩]
  else s.chunks

/-- `splitLargeSection`: a section within `MaxChunkSize` is one chunk;
otherwise paragraphs are packed greedily with overlap seeding. -/
def splitLargeSection (text0 title : Str) (opts : Options)
    (startIndex : Nat) (startOffset : Int) : List Chunk :=
  let text := trimSpace text0
  if (text.length : Int) ≤ opts.MaxChunkSize then
    [⟨startIndex, text, title, startOffset, startOffset + text.length⟩]
  else
    let paragraphs := splitIntoParagraphs text
    let s0 : PackState := ⟨[], startIndex, startOffset, startOffset, []⟩
    finalClose title (paragraphs.foldl (packStep title opts.MaxChunkSize opts.OverlapSize) s0)

/-- `headerRegex` applied to one line: a markdown heading `#{1,6}\s+(.+)$`
returns its title capture. -/
def parseHeader (line : Str) : Option Str :=
  let c := (line.takeWhile (· = '#')).length
  if 1 ≤ c ∧ c ≤ 6 then
    let rest := line.drop c
    let w := rest.takeWhile reIsSpace
    let r := rest.drop w.length
    if w = [] then none
    else if r ≠ [] then some r
    else if 2 ≤ w.length then some [w.getLast?.getD ' '] else none
  else none

/-- Go `strings.Split(content, "\\n")`: the lines of the content, empty
parts kept. -/
def splitLines : Str → List Str
  | [] => [[]]
  | c :: rest =>
    if c = '\n' then [] :: splitLines rest
    else
      match splitLines rest with
      | [] => [[c]]
      | l :: ls => (c :: l) :: ls

/-- The line-scanning state of `ChunkMarkdown`. -/
structure MdState where
  chunks : List Chunk
  currentSection : Str
  currentTitle : Str
  sectionStart : Int
  chunkIndex : Nat
  offset : Int
deriving Repr

/-- `flushSection`: trim the accumulated section, discard it below
`MinChunkSize`, otherwise run the size-splitter. -/
def flushSection (opts : Options) (s : MdState) : MdState :=
  let text := trimSpace s.currentSection
  if text.length < MinChunkSize then s
  else
    let sectionChunks := splitLargeSection text s.currentTitle opts s.chunkIndex s.sectionStart
    { s with chunks := s.chunks ++ sectionChunks,
             chunkIndex := s.chunkIndex + sectionChunks.length }

/-- One iteration of the line loop of `ChunkMarkdown`. -/
def mdStep (opts : Options) (s : MdState) (line : Str) : MdState :=
  let lineLen : Int := (line.length : Int) + 1
  let s1 := match parseHeader line with
    | some t =>
      let sf := flushSection opts s
      { sf with currentSection := [], currentTitle := t, sectionStart := sf.offset }
    | none => s
  { s1 with currentSection := s1.currentSection ++ line ++ ['\n'],
            offset := s1.offset + lineLen }

/-- `ChunkMarkdown`: split markdown into chunks by headers and size. -/
def ChunkMarkdown (content : Str) (opts0 : Options) : List Chunk :=
  let opts : Options :=
    { MaxChunkSize := if opts0.MaxChunkSize ≤ 0 then DefaultMaxChunkSize else opts0.MaxChunkSize,
      OverlapSize := if opts0.OverlapSize < 0 then DefaultOverlapSize else opts0.OverlapSize }
  let lines := splitLines content
  let s0 : MdState := ⟨[], [], [], 0, 0, 0⟩
  let s1 := lines.foldl (mdStep opts) s0
  let s2 := flushSection opts s1
  if s2.chunks = [] ∧ MinChunkSize ≤ (trimSpace content).length then
    splitLargeSection content [] opts 0 0
  else s2.chunks

end chunking

/-! ## Embedding providers (embedding/openai.go, embedding/voyage.go, the
Ollama service) -/

namespace embedding

/-- Equality of `Except` values is decidable componentwise. -/
instance {ε α : Type} [DecidableEq ε] [DecidableEq α] : DecidableEq (Except ε α)
  | .error x, .error y =>
    decidable_of_iff (x = y) ⟨fun h => h ▸ rfl, fun h => by injection h⟩
  | .error _, .ok _ => isFalse (fun h => by injection h)
  | .ok _, .error _ => isFalse (fun h => by injection h)
  | .ok x, .ok y =>
    decidable_of_iff (x = y) ⟨fun h => h ▸ rfl, fun h => by injection h⟩

/-- Go `strings.ToLower` (character-wise). -/
def toLowerStr (s : Str) : Str := s.map Char.toLower

/-- Go `strings.Contains` (substring test). -/
def containsSub (s sub : Str) : Bool := decide (sub <:+: s)

/-- `isRateLimitError`: the error text, lowered, contains "429", "rate"
or "quota". -/
def isRateLimitError (err : Str) : Bool :=
  containsSub (toLowerStr err) ([ '4', '2', '9' ]) ||
  containsSub (toLowerStr err) ([ 'r', 'a', 't', 'e' ]) ||
  containsSub (toLowerStr err) ([ 'q', 'u', 'o', 't', 'a' ])

/-- `MaxBatchSize` (OpenAI). -/
def MaxBatchSize : Nat := 2048

/-- `MaxRetries` (OpenAI). -/
def MaxRetries : Nat := 5

/-- `InitialBackoff`, in seconds. -/
def InitialBackoff : Nat := 10

/-- `MaxBackoff`, in seconds. -/
def MaxBackoff : Nat := 120

/-- Failure of an `EmbedBatch` call. -/
inductive EmbedErr where
  /-- `fmt.Errorf("failed to create embeddings: %w", err)` wrapping the
  provider error. -/
  | wrapped (msg : Str)
  /-- `ctx.Err()`: the calling context was cancelled during a backoff
  sleep. -/
  | cancelled
deriving DecidableEq, Repr

/-- Observable trace of the per-group retry loop: its result, the number
of network calls issued, and the list of backoff sleeps completed. -/
structure RetryTrace where
  result : Except EmbedErr (List Vec)
  calls : Nat
  sleeps : List Nat
deriving DecidableEq, Repr

/-- The retry loop inside OpenAI `EmbedBatch` for one batch.  `resp k`
is the outcome of the `k`-th `CreateEmbeddings` call (error message or
embeddings); `cancel k` says whether the calling context is done at the
`k`-th backoff select.  On a rate-limit error with retries left the loop
sleeps `backoff` (doubling it, capped at `MaxBackoff`) and retries; any
other failure, or exhaustion, aborts with the wrapped error. -/
def embedGroupLoop (resp : Nat → Except Str (List Vec)) (cancel : Nat → Bool)
    (retry : Nat) (backoff : Nat) : RetryTrace :=
  match resp retry with
  | .ok v => ⟨.ok v, 1, []⟩
  | .error e =>
    if h : isRateLimitError e = true ∧ retry < MaxRetries then
      if cancel retry then ⟨.error .cancelled, 1, []⟩
      else
        let r := embedGroupLoop resp cancel (retry + 1) (min (backoff * 2) MaxBackoff)
        ⟨r.result, r.calls + 1, backoff :: r.sleeps⟩
    else ⟨.error (.wrapped e), 1, []⟩
termination_by MaxRetries + 1 - retry
decreasing_by
  have := h.2
  simp only [MaxRetries] at *
  omega

/-- The batching loop `for i := 0; i < len(texts); i += MaxBatchSize`:
successive groups of at most `n` texts.  (`n = 0` would not terminate in
the source either; it is never used.) -/
def chunkList (n : Nat) (l : List Str) : List (List Str) :=
  if _hn : n = 0 then []
  else if _hl : l = [] then []
  else l.take n :: chunkList n (l.drop n)
termination_by l.length
decreasing_by
  rcases l with _ | ⟨a, l⟩
  · exact absurd rfl _hl
  · simp only [List.length_drop, List.length_cons]
    omega

/-- Observable trace of a whole `EmbedBatch` call. -/
structure BatchTrace where
  result : Except EmbedErr (List Vec)
  calls : Nat
deriving DecidableEq, Repr

/-- The group loop of OpenAI `EmbedBatch`: one retry loop per group, in
order, aborting on the first group failure and concatenating the
returned embeddings otherwise.  `resp g k` / `cancel g k` index the
environment by group and attempt. -/
def embedGroups (resp : Nat → Nat → Except Str (List Vec)) (cancel : Nat → Nat → Bool) :
    List (List Str) → Nat → BatchTrace
  | [], _ => ⟨.ok [], 0⟩
  | _g :: rest, gi =>
    let r := embedGroupLoop (resp gi) (cancel gi) 0 InitialBackoff
    match r.result with
    | .error e => ⟨.error e, r.calls⟩
    | .ok v =>
      let r2 := embedGroups resp cancel rest (gi + 1)
      match r2.result with
      | .error e => ⟨.error e, r.calls + r2.calls⟩
      | .ok vs => ⟨.ok (v ++ vs), r.calls + r2.calls⟩

/-- OpenAI `EmbedBatch`: empty input returns immediately with no call;
otherwise the input is processed in groups of at most `MaxBatchSize`. -/
def EmbedBatch (resp : Nat → Nat → Except Str (List Vec)) (cancel : Nat → Nat → Bool)
    (texts : List Str) : BatchTrace :=
  if texts = [] then ⟨.ok [], 0⟩
  else embedGroups resp cancel (chunkList MaxBatchSize texts) 0

/-- `VoyageMaxBatchSize`. -/
def VoyageMaxBatchSize : Nat := 128

/-- `VoyageMaxRetries`. -/
def VoyageMaxRetries : Nat := 5

/-- One HTTP response from the Voyage API: status code and the `data`
list of (index, embedding) pairs. -/
structure VoyageResp where
  status : Nat
  data : List (Nat × Vec)
  body : Str
deriving Repr

/-- `embeddings[data.Index] = embedding`: place each returned embedding
at its reported index.  (An out-of-range index panics in Go; here the
write is dropped — unreachable for a well-formed response.) -/
def reorderByIndex (data : List (Nat × Vec)) : List Vec :=
  data.foldl (fun acc p => acc.set p.1 p.2) (List.replicate data.length [])

/-- `embedBatchWithRetry` (Voyage): retry only on HTTP 429 with the same
doubling backoff (10s start, 120s cap, `VoyageMaxRetries` bound); a
transport error aborts at once; after the loop a non-200 status is an
error, otherwise the embeddings are reassembled by index. -/
def voyageRetryLoop (resp : Nat → Except Str VoyageResp) (cancel : Nat → Bool)
    (retry : Nat) (backoff : Nat) : RetryTrace :=
  match resp retry with
  | .error e => ⟨.error (.wrapped e), 1, []⟩
  | .ok r =>
    if h : r.status = 429 ∧ retry < VoyageMaxRetries then
      if cancel retry then ⟨.error .cancelled, 1, []⟩
      else
        let t := voyageRetryLoop resp cancel (retry + 1) (min (backoff * 2) 120)
        ⟨t.result, t.calls + 1, backoff :: t.sleeps⟩
    else
      if r.status ≠ 200 then ⟨.error (.wrapped r.body), 1, []⟩
      else ⟨.ok (reorderByIndex r.data), 1, []⟩
termination_by VoyageMaxRetries + 1 - retry
decreasing_by
  have := h.2
  simp only [VoyageMaxRetries] at *
  omega

/-- The group loop of Voyage `EmbedBatch`. -/
def voyageGroups (resp : Nat → Nat → Except Str VoyageResp) (cancel : Nat → Nat → Bool) :
    List (List Str) → Nat → BatchTrace
  | [], _ => ⟨.ok [], 0⟩
  | _g :: rest, gi =>
    let r := voyageRetryLoop (resp gi) (cancel gi) 0 10
    match r.result with
    | .error e => ⟨.error e, r.calls⟩
    | .ok v =>
      let r2 := voyageGroups resp cancel rest (gi + 1)
      match r2.result with
      | .error e => ⟨.error e, r.calls + r2.calls⟩
      | .ok vs => ⟨.ok (v ++ vs), r.calls + r2.calls⟩

/-- Voyage `EmbedBatch`: empty input returns immediately; otherwise
groups of at most `VoyageMaxBatchSize`. -/
def VoyageEmbedBatch (resp : Nat → Nat → Except Str VoyageResp) (cancel : Nat → Nat → Bool)
    (texts : List Str) : BatchTrace :=
  if texts = [] then ⟨.ok [], 0⟩
  else voyageGroups resp cancel (chunkList VoyageMaxBatchSize texts) 0

/-- One HTTP response from the Ollama `/api/embeddings` endpoint. -/
structure OllamaResp where
  status : Nat
  embedding : Vec
  body : Str
deriving Repr

/-- Ollama `Embed`: one request, no retry; transport errors and non-200
statuses fail at once. -/
def OllamaEmbed (resp : Except Str OllamaResp) : Except Str Vec :=
  match resp with
  | .error e => .error e
  | .ok r => if r.status ≠ 200 then .error r.body else .ok r.embedding

/-- The sequential loop of Ollama `EmbedBatch`: one `Embed` call per
text, aborting the batch on the first failure. -/
def ollamaLoop (resp : Nat → Except Str OllamaResp) : List Str → Nat →
    (Except Str (List Vec)) × Nat
  | [], _ => (.ok [], 0)
  | _t :: rest, i =>
    match OllamaEmbed (resp i) with
    | .error e => (.error e, 1)
    | .ok v =>
      let (r2, n2) := ollamaLoop resp rest (i + 1)
      match r2 with
      | .error e => (.error e, n2 + 1)
      | .ok vs => (.ok (v :: vs), n2 + 1)

/-- Ollama `EmbedBatch`: empty input returns immediately with no call;
otherwise one `Embed` per text. -/
def OllamaEmbedBatch (resp : Nat → Except Str OllamaResp) (texts : List Str) :
    (Except Str (List Vec)) × Nat :=
  if texts = [] then (.ok [], 0)
  else ollamaLoop resp texts 0

end embedding

/-! ## Vector store (vector/storage.go)

The SQLite tables are modelled as lists of rows; SQL statements become
list operations with the same observable effect.  `UpdatedAt` columns
(wall-clock timestamps) are omitted. -/

namespace vector

/-- `vector.Chunk` (a chunk row of the `chunks` virtual table). -/
structure Chunk where
  DocID : Nat
  ChunkIndex : Nat
  ChunkText : Str
  SectionTitle : Str
  Embedding : Vec
deriving DecidableEq, Repr

/-- `vector.DocumentRecord` (a row of the `documents` table, without the
`updated_at` timestamp). -/
structure DocumentRecord where
  ID : Nat
  Path : Str
  Title : Str
  ContentHash : Str
deriving DecidableEq, Repr

/-- `vector.SearchResult`. -/
structure SearchResult where
  Chunk : Chunk
  Document : DocumentRecord
  Score : Int
deriving DecidableEq, Repr

/-- The persistent state of the `SQLiteStore`: the `metadata` dimension
row, the in-memory `dimension` field, both tables, and the
AUTOINCREMENT counter for document ids. -/
structure StoreState where
  storedDim : Option Int
  dimension : Int
  documents : List DocumentRecord
  chunks : List Chunk
  nextId : Nat
deriving DecidableEq, Repr

/-- `SELECT ... FROM documents WHERE path = ?`. -/
def findDoc (s : StoreState) (path : Str) : Option DocumentRecord :=
  s.documents.find? (fun d => d.Path = path)

/-- `NeedsUpdate`: true when the path has no record or the stored hash
differs from the given one. -/
def NeedsUpdate (s : StoreState) (path contentHash : Str) : Bool :=
  match findDoc s path with
  | none => true
  | some d => decide (d.ContentHash ≠ contentHash)

/-- `UpsertDocument`: insert-or-update keyed by path, returning the
row id. -/
def UpsertDocument (s : StoreState) (path title contentHash : Str) :
    Nat × StoreState :=
  match findDoc s path with
  | some d =>
    (d.ID,
     { s with documents := s.documents.map (fun r =>
         if r.Path = path then { r with Title := title, ContentHash := contentHash }
         else r) })
  | none =>
    (s.nextId,
     { s with documents := s.documents ++ [⟨s.nextId, path, title, contentHash⟩],
              nextId := s.nextId + 1 })

/-- `InsertChunks`: delete the document's existing chunks, then insert
the new set. -/
def InsertChunks (s : StoreState) (docID : Nat) (cs : List Chunk) : StoreState :=
  { s with chunks := s.chunks.filter (fun c => c.DocID ≠ docID) ++ cs }

/-- `DeleteDocument`: remove a document and its chunks (no-op for an
unknown path). -/
def DeleteDocument (s : StoreState) (path : Str) : StoreState :=
  match findDoc s path with
  | none => s
  | some d =>
    { s with chunks := s.chunks.filter (fun c => c.DocID ≠ d.ID),
             documents := s.documents.filter (fun r => r.ID ≠ d.ID) }

/-- The destructive migration branch of `SetDimension`: drop the chunks
table, clear the documents table, recreate chunk storage for the new
dimension and persist the dimension marker. -/
def migrateDimension (s : StoreState) (dim : Int) : StoreState :=
  { s with dimension := dim, chunks := [], documents := [], storedDim := some dim }

/-- `SetDimension`: when the recorded dimension equals `dim`, only the
in-memory field is set; otherwise the destructive migration runs. -/
def SetDimension (s : StoreState) (dim : Int) : StoreState :=
  match s.storedDim with
  | some d => if d = dim then { s with dimension := dim } else migrateDimension s dim
  | none => migrateDimension s dim

/-- `Search`: join each chunk row with its parent document, order by
ascending distance (`dist`, the store's distance measure for the query
vector) and return at most `limit` rows.  Chunks whose `doc_id` has no
parent row drop out of the inner join. -/
def Search (s : StoreState) (dist : Chunk → Int) (limit : Nat) : List SearchResult :=
  let joined := s.chunks.filterMap (fun c =>
    (s.documents.find? (fun d => d.ID = c.DocID)).map (fun d => ⟨c, d, dist c⟩))
  (joined.mergeSort (fun a b => a.Score ≤ b.Score)).take limit

end vector

/-! ## Indexing orchestrator (`EmbeddingManager.IndexDocument`, package
main) and the HTTP search handler (app.go) -/

namespace app

/-- The fields of `Document` (models.go) that the indexing and search
paths read. -/
structure Document where
  Title : Str
  RelPath : Str
  Content : Str
  Overview : Str
deriving DecidableEq, Repr

/-- The per-chunk context text built by `IndexDocument`: document title,
optionally " - " plus the section title, a blank line, then the chunk
body. -/
def contextText (doc : Document) (c : chunking.Chunk) : Str :=
  doc.Title ++ (if c.SectionTitle ≠ [] then (' ' :: '-' :: ' ' :: []) ++ c.SectionTitle else [])
    ++ ('\n' :: '\n' :: []) ++ c.Text

/-- `vectorChunks[i]` as built by `IndexDocument` (Go indexes
`embeddings[i]` positionally; zipping is the same when the provider
returns one embedding per text, and the Go code panics otherwise). -/
def buildVectorChunks (docID : Nat) (chunks : List chunking.Chunk) (embs : List Vec) :
    List vector.Chunk :=
  (chunks.zip embs).map (fun p =>
    ⟨docID, p.1.Index, p.1.Text, p.1.SectionTitle, p.2⟩)

/-- Observable outcome of one `IndexDocument` call: its error result,
the store state it leaves behind, and how many embedding-provider batch
calls it made. -/
structure IndexOutcome where
  result : Except Str Unit
  store : vector.StoreState
  embedCalls : Nat
deriving DecidableEq, Repr

/-- `EmbeddingManager.IndexDocument` with the content hash and the
embedding provider abstracted: `hashFn` stands for hex-encoded SHA-256
(opaque to every claim except that equal content gives equal hashes) and
`embed` for `Service.EmbedBatch`. -/
def IndexDocument (hashFn : Str → Str) (embed : List Str → Except Str (List Vec))
    (s : vector.StoreState) (doc : Document) (force : Bool) : IndexOutcome :=
  let contentHash := hashFn doc.Content
  if ¬force ∧ vector.NeedsUpdate s doc.RelPath contentHash = false then
    ⟨.ok (), s, 0⟩
  else
    let up := vector.UpsertDocument s doc.RelPath doc.Title contentHash
    let docID := up.1
    let s1 := up.2
    let chunks := chunking.ChunkMarkdown doc.Content chunking.DefaultOptions
    if chunks = [] then ⟨.ok (), s1, 0⟩
    else
      let chunkTexts := chunks.map (contextText doc)
      match embed chunkTexts with
      | .error e => ⟨.error e, s1, 1⟩
      | .ok embeddings =>
        ⟨.ok (), vector.InsertChunks s1 docID (buildVectorChunks docID chunks embeddings), 1⟩

/-- `SearchResultJSON` (app.go). -/
structure SearchResultJSON where
  Document : Document
  Score : Int
  ChunkText : Str
  SectionTitle : Str
  IsVectorSearch : Bool
deriving DecidableEq, Repr

/-- The deduplication loop of `vectorSearch`: walk the store results in
order, look up the full document by path, skip results without one, and
keep only the first result per document path (`seenDocs`). -/
def vectorSearchFold (docs : List Document) :
    List vector.SearchResult → List Str → List SearchResultJSON
  | [], _ => []
  | r :: rest, seen =>
    match docs.find? (fun d => d.RelPath = r.Document.Path) with
    | none => vectorSearchFold docs rest seen
    | some doc =>
      if doc.RelPath ∈ seen then vectorSearchFold docs rest seen
      else
        ⟨doc, r.Score, r.Chunk.ChunkText, r.Chunk.SectionTitle, true⟩ ::
          vectorSearchFold docs rest (doc.RelPath :: seen)

/-- `App.vectorSearch` applied to the results the store returned for the
query (the store call itself is the environment). -/
def vectorSearch (docs : List Document) (results : List vector.SearchResult) :
    List SearchResultJSON :=
  vectorSearchFold docs results []

/-- `App.textSearch`: case-insensitive substring scan over title,
content and overview. -/
def textSearch (docs : List Document) (query : Str) : List SearchResultJSON :=
  let queryLower := embedding.toLowerStr query
  docs.filterMap (fun doc =>
    if embedding.containsSub (embedding.toLowerStr doc.Title) queryLower
        || embedding.containsSub (embedding.toLowerStr doc.Content) queryLower
        || embedding.containsSub (embedding.toLowerStr doc.Overview) queryLower
    then some ⟨doc, 0, [], [], false⟩
    else none)

/-- Observable behaviour of `handleSearch`: the encoded result list and
whether the vector-search path and the text-search fallback ran. -/
structure SearchResponse where
  body : List SearchResultJSON
  vectorSearchRan : Bool
  textSearchRan : Bool
deriving DecidableEq, Repr

/-- `App.handleSearch`.  `emEnabled` models
`a.EmbeddingManager != nil && a.EmbeddingManager.IsEnabled()`;
`storeResults` is the outcome of the embed-then-store-search call made
by `vectorSearch` (error means that path failed and the handler falls
back to text search). -/
def handleSearch (docs : List Document) (emEnabled : Bool)
    (storeResults : Except Str (List vector.SearchResult)) (q : Str) : SearchResponse :=
  let query := chunking.trimSpace q
  if query = [] then ⟨[], false, false⟩
  else if emEnabled then
    match storeResults with
    | .ok results => ⟨vectorSearch docs results, true, false⟩
    | .error _ => ⟨textSearch docs query, true, true⟩
  else ⟨textSearch docs query, false, true⟩

end app

/-! ## MCP search tool (`handleSearchDocs`, package mcp) -/

namespace mcp

/-- The limit clamping at the head of `handleSearchDocs`:
`request.GetInt("limit", 5)` then the two bound checks. -/
def clampLimit (limitParam : Option Int) : Int :=
  let limit := limitParam.getD 5
  let limit1 := if 20 < limit then 20 else limit
  if limit1 < 1 then 1 else limit1

/-- Observable behaviour of `handleSearchDocs`: whether a tool error was
returned, and the limit passed to `vectorStore.Search` when the search
was reached. -/
structure SearchDocsOutcome where
  isError : Bool
  storeLimit : Option Int
deriving DecidableEq, Repr

/-- `Server.handleSearchDocs`: an empty query is a tool error; otherwise
the limit is clamped, the query embedded (`embedRes` is that call's
outcome) and the store searched with the clamped limit. -/
def handleSearchDocs (query : Str) (limitParam : Option Int)
    (embedRes : Except Str Vec) : SearchDocsOutcome :=
  if query = [] then ⟨true, none⟩
  else
    let limit := clampLimit limitParam
    match embedRes with
    | .error _ => ⟨true, none⟩
    | .ok _ => ⟨false, some limit⟩

end mcp

/-! ## Claim C8 -/

/-- C8: for every provider variant (OpenAI, Voyage, Ollama), `EmbedBatch`
applied to the empty list of texts returns an empty result and no error,
without issuing any network call. -/
theorem C8_embedBatch_empty_noop :
    (∀ resp cancel, embedding.EmbedBatch resp cancel [] = ⟨.ok [], 0⟩) ∧
    (∀ resp cancel, embedding.VoyageEmbedBatch resp cancel [] = ⟨.ok [], 0⟩) ∧
    (∀ resp, embedding.OllamaEmbedBatch resp [] = (.ok [], 0)) :=
  ⟨fun _ _ => rfl, fun _ _ => rfl, fun _ => rfl⟩

/-! ## Claim C9 -/

/-- C9: the HTTP search handler, for a query string that is empty or
whitespace-only, returns an empty result list without invoking either
vector search or the text-search fallback. -/
theorem C9_handleSearch_blank_query (docs : List app.Document) (emEnabled : Bool)
    (storeResults : Except Str (List vector.SearchResult)) (q : Str)
    (h : chunking.trimSpace q = []) :
    app.handleSearch docs emEnabled storeResults q = ⟨[], false, false⟩ := by
  unfold app.handleSearch
  simp [h]

/-- Witness for C9 at the whitespace-only query `" \t "`. -/
theorem C9_handleSearch_blank_query_witness :
    chunking.trimSpace (' ' :: '\t' :: ' ' :: []) = [] ∧
    app.handleSearch [] true (.ok []) (' ' :: '\t' :: ' ' :: []) = ⟨[], false, false⟩ :=
  ⟨by decide, C9_handleSearch_blank_query [] true (.ok []) (' ' :: '\t' :: ' ' :: []) (by decide)⟩

/-! ## Claim C10 -/

/-- The clamped limit always lands in `[1, 20]`. -/
theorem clampLimit_bounds (o : Option Int) :
    1 ≤ mcp.clampLimit o ∧ mcp.clampLimit o ≤ 20 := by
  unfold mcp.clampLimit
  rcases o with _ | v <;> simp only [Option.getD] <;> split <;> (try split) <;> omega

/-- C10: the MCP `search_docs` tool clamps its limit into `[1, 20]`:
missing defaults to 5, above 20 is reduced to 20, below 1 raised to 1,
in-range values pass through, and the store is only ever asked with a
limit in `[1, 20]`. -/
theorem C10_searchDocs_limit_clamped :
    mcp.clampLimit none = 5 ∧
    (∀ v : Int, 1 ≤ mcp.clampLimit (some v) ∧ mcp.clampLimit (some v) ≤ 20) ∧
    (∀ v : Int, 20 < v → mcp.clampLimit (some v) = 20) ∧
    (∀ v : Int, v < 1 → mcp.clampLimit (some v) = 1) ∧
    (∀ v : Int, 1 ≤ v → v ≤ 20 → mcp.clampLimit (some v) = v) ∧
    (∀ q limitParam embedRes l,
      (mcp.handleSearchDocs q limitParam embedRes).storeLimit = some l →
      1 ≤ l ∧ l ≤ 20) := by
  refine ⟨rfl, fun v => clampLimit_bounds (some v), fun v hv => ?_, fun v hv => ?_,
    fun v h1 h2 => ?_, fun q lp er l hl => ?_⟩
  · unfold mcp.clampLimit
    simp only [Option.getD]
    split <;> (try split) <;> omega
  · unfold mcp.clampLimit
    simp only [Option.getD]
    split <;> (try split) <;> omega
  · unfold mcp.clampLimit
    simp only [Option.getD]
    split <;> (try split) <;> omega
  · unfold mcp.handleSearchDocs at hl
    split at hl
    · exact absurd hl (by simp)
    · rcases er with e | v
      · exact absurd hl (by simp)
      · simp only [Option.some.injEq] at hl
        exact hl ▸ clampLimit_bounds lp

/-- Witness for C10: a missing limit gives 5, 100 clamps to 20, 0 raises
to 1, 7 passes through, and a concrete tool call reaches the store with
limit 20. -/
theorem C10_searchDocs_limit_clamped_witness :
    mcp.clampLimit none = 5 ∧
    mcp.clampLimit (some 100) = 20 ∧
    mcp.clampLimit (some 0) = 1 ∧
    mcp.clampLimit (some 7) = 7 ∧
    (1 ≤ (20 : Int) ∧ (20 : Int) ≤ 20) :=
  ⟨C10_searchDocs_limit_clamped.1,
   C10_searchDocs_limit_clamped.2.2.1 100 (by decide),
   C10_searchDocs_limit_clamped.2.2.2.1 0 (by decide),
   C10_searchDocs_limit_clamped.2.2.2.2.1 7 (by decide) (by decide),
   C10_searchDocs_limit_clamped.2.2.2.2.2 (['a']) (some 100) (.ok []) 20 (by decide)⟩

/-! ## Claim C6 -/

/-- C6: when the recorded dimension differs from the configured one,
`SetDimension` drops the chunk corpus, clears all document records,
records the new dimension (the chunk storage is recreated for it), and
afterwards every path reports "needs update" and no search returns any
row; when the recorded dimension already equals the configured one,
the stored tables and the dimension marker are unchanged. -/
theorem C6_dimension_migration (s : vector.StoreState) (dim : Int) :
    (s.storedDim ≠ some dim →
      vector.SetDimension s dim =
        { storedDim := some dim, dimension := dim, documents := [], chunks := [],
          nextId := s.nextId } ∧
      (∀ path contentHash, vector.NeedsUpdate (vector.SetDimension s dim) path contentHash = true) ∧
      (∀ dist limit, vector.Search (vector.SetDimension s dim) dist limit = [])) ∧
    (s.storedDim = some dim →
      (vector.SetDimension s dim).documents = s.documents ∧
      (vector.SetDimension s dim).chunks = s.chunks ∧
      (vector.SetDimension s dim).storedDim = s.storedDim ∧
      (vector.SetDimension s dim).dimension = dim) := by
  constructor
  · intro hne
    have hmig : vector.SetDimension s dim = vector.migrateDimension s dim := by
      unfold vector.SetDimension
      rcases hsd : s.storedDim with _ | d
      · rfl
      · have : ¬ d = dim := fun h => hne (by rw [hsd, h])
        simp [this]
    refine ⟨by rw [hmig]; rfl, ?_, ?_⟩
    · intro path contentHash
      rw [hmig]
      unfold vector.NeedsUpdate vector.findDoc vector.migrateDimension
      simp
    · intro dist limit
      rw [hmig]
      unfold vector.Search vector.migrateDimension
      simp
  · intro heq
    unfold vector.SetDimension
    rw [heq]
    simp

/-- Witness for C6: migrating a one-document store from dimension 3072
to 768 empties it, makes the old path report "needs update", and makes
every search empty; re-recording 768 then changes nothing. -/
theorem C6_dimension_migration_witness :
    vector.SetDimension ⟨some 3072, 3072, [⟨1, ['p'], ['t'], ['h']⟩], [⟨1, 0, ['x'], [], [1]⟩], 2⟩ 768 =
      ⟨some 768, 768, [], [], 2⟩ ∧
    vector.NeedsUpdate
      (vector.SetDimension ⟨some 3072, 3072, [⟨1, ['p'], ['t'], ['h']⟩], [⟨1, 0, ['x'], [], [1]⟩], 2⟩ 768)
      ['p'] ['h'] = true ∧
    vector.Search
      (vector.SetDimension ⟨some 3072, 3072, [⟨1, ['p'], ['t'], ['h']⟩], [⟨1, 0, ['x'], [], [1]⟩], 2⟩ 768)
      (fun _ => 0) 5 = [] := by
  have h := (C6_dimension_migration
    ⟨some 3072, 3072, [⟨1, ['p'], ['t'], ['h']⟩], [⟨1, 0, ['x'], [], [1]⟩], 2⟩ 768).1 (by decide)
  exact ⟨h.1, h.2.1 ['p'] ['h'], h.2.2 (fun _ => 0) 5⟩

/-! ## Claim C7 -/

namespace app

/-- Spec-side definition, following the specification's words: walk the
vector results best-first, resolve each to its full document by path,
and keep only the first-encountered result per document path (dropping
every later result with the same path). -/
def dedupByPathFirst (docs : List Document) (results : List vector.SearchResult) :
    List SearchResultJSON :=
  match results with
  | [] => []
  | r :: rest =>
    match docs.find? (fun d => d.RelPath = r.Document.Path) with
    | none => dedupByPathFirst docs rest
    | some doc =>
      ⟨doc, r.Score, r.Chunk.ChunkText, r.Chunk.SectionTitle, true⟩ ::
        dedupByPathFirst docs (rest.filter (fun r2 => r2.Document.Path ≠ r.Document.Path))
termination_by results.length
decreasing_by
  · simp only [List.length_cons]
    omega
  · simp only [List.length_cons]
    have := List.length_filter_le (fun r2 : vector.SearchResult =>
      decide (r2.Document.Path ≠ r.Document.Path)) rest
    omega

/-- Unfolding equation of `vectorSearchFold` on a cons cell. -/
theorem vectorSearchFold_cons (docs : List Document) (r : vector.SearchResult)
    (rest : List vector.SearchResult) (seen : List Str) :
    vectorSearchFold docs (r :: rest) seen =
      match docs.find? (fun d => d.RelPath = r.Document.Path) with
      | none => vectorSearchFold docs rest seen
      | some doc =>
        if doc.RelPath ∈ seen then vectorSearchFold docs rest seen
        else ⟨doc, r.Score, r.Chunk.ChunkText, r.Chunk.SectionTitle, true⟩ ::
          vectorSearchFold docs rest (doc.RelPath :: seen) := rfl

/-- Unfolding equation of `dedupByPathFirst` on the empty list. -/
theorem dedupByPathFirst_nil (docs : List Document) :
    dedupByPathFirst docs [] = [] := by
  rw [dedupByPathFirst.eq_def]

/-- Unfolding equation of `dedupByPathFirst` on a cons cell. -/
theorem dedupByPathFirst_cons (docs : List Document) (r : vector.SearchResult)
    (rest : List vector.SearchResult) :
    dedupByPathFirst docs (r :: rest) =
      match docs.find? (fun d => d.RelPath = r.Document.Path) with
      | none => dedupByPathFirst docs rest
      | some doc =>
        ⟨doc, r.Score, r.Chunk.ChunkText, r.Chunk.SectionTitle, true⟩ ::
          dedupByPathFirst docs (rest.filter (fun r2 => r2.Document.Path ≠ r.Document.Path)) := by
  rw [dedupByPathFirst.eq_def]

/-- The implementation's seen-set fold equals the spec-side keep-first
recursion once the seen set is reflected as a filter on the remaining
results. -/
theorem vectorSearchFold_eq_dedup (docs : List Document) :
    ∀ (n : Nat) (results : List vector.SearchResult) (seen : List Str),
      results.length ≤ n →
      vectorSearchFold docs results seen =
        dedupByPathFirst docs
          (results.filter (fun r => !decide (r.Document.Path ∈ seen))) := by
  intro n
  induction n with
  | zero =>
    intro results seen hlen
    have : results = [] := List.eq_nil_of_length_eq_zero (Nat.le_zero.mp hlen)
    subst this
    simp [vectorSearchFold, dedupByPathFirst_nil]
  | succ n ih =>
    intro results seen hlen
    rcases results with _ | ⟨r, rest⟩
    · simp [vectorSearchFold, dedupByPathFirst_nil]
    · simp only [List.length_cons, Nat.succ_le_succ_iff] at hlen
      rcases hfind : docs.find? (fun d => d.RelPath = r.Document.Path) with _ | doc
      · by_cases hseen : r.Document.Path ∈ seen
        · rw [vectorSearchFold_cons, hfind,
            show (r :: rest).filter (fun x => !decide (x.Document.Path ∈ seen)) =
              rest.filter (fun x => !decide (x.Document.Path ∈ seen)) from by
                simp [List.filter_cons, hseen]]
          exact ih rest seen hlen
        · rw [vectorSearchFold_cons, hfind,
            show (r :: rest).filter (fun x => !decide (x.Document.Path ∈ seen)) =
              r :: rest.filter (fun x => !decide (x.Document.Path ∈ seen)) from by
                simp [List.filter_cons, hseen],
            dedupByPathFirst_cons, hfind]
          exact ih rest seen hlen
      · have hpath : doc.RelPath = r.Document.Path := by
          have := List.find?_some hfind
          simpa using this
        by_cases hseen : r.Document.Path ∈ seen
        · have hseen2 : doc.RelPath ∈ seen := by rw [hpath]; exact hseen
          rw [vectorSearchFold_cons, hfind,
            show (r :: rest).filter (fun x => !decide (x.Document.Path ∈ seen)) =
              rest.filter (fun x => !decide (x.Document.Path ∈ seen)) from by
                simp [List.filter_cons, hseen]]
          simp only [hseen2, if_true]
          exact ih rest seen hlen
        · have hseen2 : ¬ doc.RelPath ∈ seen := by rw [hpath]; exact hseen
          rw [vectorSearchFold_cons, hfind,
            show (r :: rest).filter (fun x => !decide (x.Document.Path ∈ seen)) =
              r :: rest.filter (fun x => !decide (x.Document.Path ∈ seen)) from by
                simp [List.filter_cons, hseen],
            dedupByPathFirst_cons, hfind]
          simp only [hseen2, if_false, if_neg hseen2]
          have hf : (rest.filter (fun x => !decide (x.Document.Path ∈ seen))).filter
                (fun r2 => r2.Document.Path ≠ r.Document.Path) =
              rest.filter (fun x => !decide (x.Document.Path ∈ r.Document.Path :: seen)) := by
            rw [List.filter_filter]
            apply List.filter_congr
            intro x _
            simp only [List.mem_cons, decide_not, Bool.not_eq_true', decide_eq_false_iff_not,
              not_or, Bool.and_eq_true, decide_eq_true_eq, Bool.not_eq_true, Bool.not_and]
            by_cases h1 : x.Document.Path = r.Document.Path <;>
              by_cases h2 : x.Document.Path ∈ seen <;>
                simp [h1, h2]
          rw [hf]
          have hrec := ih rest (r.Document.Path :: seen) hlen
          rw [hpath, hrec]

end app

/-- C7: hybrid-search deduplication keeps only the first-encountered
(best, since results arrive best-first) result per document path: the
handler's fold equals the spec's keep-first deduplication on every
input, and the concrete path sequence [A, A, B] collapses to [A, B]
with A carrying its first score and chunk. -/
theorem C7_dedup_by_path_first :
    (∀ (docs : List app.Document) (results : List vector.SearchResult),
      app.vectorSearch docs results = app.dedupByPathFirst docs results) ∧
    app.vectorSearch
      [⟨['t'], ['A'], [], []⟩, ⟨['u'], ['B'], [], []⟩]
      [⟨⟨1, 0, ['x'], ['s'], []⟩, ⟨1, ['A'], ['t'], ['h']⟩, 1⟩,
       ⟨⟨1, 1, ['y'], ['s'], []⟩, ⟨1, ['A'], ['t'], ['h']⟩, 2⟩,
       ⟨⟨2, 0, ['z'], ['s'], []⟩, ⟨2, ['B'], ['u'], ['g']⟩, 3⟩] =
      [⟨⟨['t'], ['A'], [], []⟩, 1, ['x'], ['s'], true⟩,
       ⟨⟨['u'], ['B'], [], []⟩, 3, ['z'], ['s'], true⟩] := by
  constructor
  · intro docs results
    have h := app.vectorSearchFold_eq_dedup docs results.length results [] le_rfl
    simpa [app.vectorSearch] using h
  · decide

/-! ## Claim C4 -/

/-- `InsertChunks` leaves the documents table unchanged, so it does not
affect `NeedsUpdate`. -/
theorem NeedsUpdate_insertChunks (s : vector.StoreState) (docID : Nat)
    (cs : List vector.Chunk) (path contentHash : Str) :
    vector.NeedsUpdate (vector.InsertChunks s docID cs) path contentHash =
      vector.NeedsUpdate s path contentHash := rfl

/-- After `UpsertDocument path title hash`, the store no longer reports
`path` as needing an update for `hash`. -/
theorem NeedsUpdate_after_upsert (s : vector.StoreState) (path title contentHash : Str) :
    vector.NeedsUpdate (vector.UpsertDocument s path title contentHash).2 path contentHash = false := by
  unfold vector.NeedsUpdate vector.UpsertDocument vector.findDoc
  rcases hfind : s.documents.find? (fun d => decide (d.Path = path)) with _ | d
  · simp only [hfind]
    rw [List.find?_append, hfind]
    simp
  · simp only [hfind]
    rw [List.find?_map]
    have hcomp : ((fun d : vector.DocumentRecord => decide (d.Path = path)) ∘
        (fun r : vector.DocumentRecord =>
          if r.Path = path then { r with Title := title, ContentHash := contentHash } else r)) =
        (fun d : vector.DocumentRecord => decide (d.Path = path)) := by
      funext r
      by_cases hr : r.Path = path <;> simp [hr]
    rw [hcomp, hfind]
    have hdp : d.Path = path := by
      have := List.find?_some hfind
      simpa using this
    simp [hdp]

/-- C4: indexing is idempotent.  If `IndexDocument(doc, force=false)`
starts from a store that reports the content as needing an update,
produces at least one chunk and succeeds, then it made exactly one
embedding batch call, and a second call with the same content finds
"no re-embedding needed" and is a no-op success: same store, no
embedding call. -/
theorem C4_indexDocument_idempotent (hashFn : Str → Str)
    (embed : List Str → Except Str (List Vec))
    (s0 : vector.StoreState) (doc : app.Document)
    (hneeds : vector.NeedsUpdate s0 doc.RelPath (hashFn doc.Content) = true)
    (hchunks : chunking.ChunkMarkdown doc.Content chunking.DefaultOptions ≠ [])
    (hok : (app.IndexDocument hashFn embed s0 doc false).result = .ok ()) :
    (app.IndexDocument hashFn embed s0 doc false).embedCalls = 1 ∧
    vector.NeedsUpdate (app.IndexDocument hashFn embed s0 doc false).store
      doc.RelPath (hashFn doc.Content) = false ∧
    app.IndexDocument hashFn embed (app.IndexDocument hashFn embed s0 doc false).store doc false =
      ⟨.ok (), (app.IndexDocument hashFn embed s0 doc false).store, 0⟩ := by
  have hcond : ¬ (¬ false = true ∧ vector.NeedsUpdate s0 doc.RelPath (hashFn doc.Content) = false) := by
    simp [hneeds]
  have hfirst : app.IndexDocument hashFn embed s0 doc false =
      (match embed ((chunking.ChunkMarkdown doc.Content chunking.DefaultOptions).map (app.contextText doc)) with
        | .error e => ⟨.error e,
            (vector.UpsertDocument s0 doc.RelPath doc.Title (hashFn doc.Content)).2, 1⟩
        | .ok embeddings => ⟨.ok (),
            vector.InsertChunks (vector.UpsertDocument s0 doc.RelPath doc.Title (hashFn doc.Content)).2
              (vector.UpsertDocument s0 doc.RelPath doc.Title (hashFn doc.Content)).1
              (app.buildVectorChunks
                (vector.UpsertDocument s0 doc.RelPath doc.Title (hashFn doc.Content)).1
                (chunking.ChunkMarkdown doc.Content chunking.DefaultOptions) embeddings), 1⟩) := by
    unfold app.IndexDocument
    rw [if_neg (by simpa using hcond), if_neg hchunks]
  rcases hembed : embed ((chunking.ChunkMarkdown doc.Content chunking.DefaultOptions).map
      (app.contextText doc)) with e | embeddings
  · rw [hfirst, hembed] at hok
    exact absurd hok (by simp)
  · rw [hfirst, hembed]
    refine ⟨rfl, ?_, ?_⟩
    · rw [NeedsUpdate_insertChunks, NeedsUpdate_after_upsert]
    · have hnu : vector.NeedsUpdate
          (vector.InsertChunks (vector.UpsertDocument s0 doc.RelPath doc.Title (hashFn doc.Content)).2
            (vector.UpsertDocument s0 doc.RelPath doc.Title (hashFn doc.Content)).1
            (app.buildVectorChunks
              (vector.UpsertDocument s0 doc.RelPath doc.Title (hashFn doc.Content)).1
              (chunking.ChunkMarkdown doc.Content chunking.DefaultOptions) embeddings))
          doc.RelPath (hashFn doc.Content) = false := by
        rw [NeedsUpdate_insertChunks, NeedsUpdate_after_upsert]
      unfold app.IndexDocument
      rw [if_pos (by simp [hnu])]

/-- Witness for C4 at a fresh one-document store with an
always-succeeding provider. -/
theorem C4_indexDocument_idempotent_witness :
    (app.IndexDocument (fun s => s) (fun ts => .ok (ts.map (fun _ => [0])))
        ⟨none, 3072, [], [], 1⟩ ⟨['T'], ['p'], List.replicate 120 'a', []⟩ false).embedCalls = 1 ∧
    vector.NeedsUpdate
      (app.IndexDocument (fun s => s) (fun ts => .ok (ts.map (fun _ => [0])))
        ⟨none, 3072, [], [], 1⟩ ⟨['T'], ['p'], List.replicate 120 'a', []⟩ false).store
      ['p'] (List.replicate 120 'a') = false ∧
    app.IndexDocument (fun s => s) (fun ts => .ok (ts.map (fun _ => [0])))
      (app.IndexDocument (fun s => s) (fun ts => .ok (ts.map (fun _ => [0])))
        ⟨none, 3072, [], [], 1⟩ ⟨['T'], ['p'], List.replicate 120 'a', []⟩ false).store
      ⟨['T'], ['p'], List.replicate 120 'a', []⟩ false =
      ⟨.ok (),
       (app.IndexDocument (fun s => s) (fun ts => .ok (ts.map (fun _ => [0])))
         ⟨none, 3072, [], [], 1⟩ ⟨['T'], ['p'], List.replicate 120 'a', []⟩ false).store, 0⟩ :=
  C4_indexDocument_idempotent (fun s => s) (fun ts => .ok (ts.map (fun _ => [0])))
    ⟨none, 3072, [], [], 1⟩ ⟨['T'], ['p'], List.replicate 120 'a', []⟩
    (by decide) (by decide) (by decide)

/-! ## Claim C2 -/

/-- A document first indexed with content `aaaa…` (120 chars). -/
def C2doc1 : app.Document := ⟨['T'], ['p'], List.replicate 120 'a', []⟩

/-- The same path re-read with changed content `bbbb…` (120 chars). -/
def C2doc2 : app.Document := ⟨['T'], ['p'], List.replicate 120 'b', []⟩

/-- A provider that embeds every text successfully. -/
def C2embedOk : List Str → Except Str (List Vec) := fun ts => .ok (ts.map (fun _ => [0]))

/-- A provider whose batch call fails terminally (e.g. rate-limit
retries exhausted). -/
def C2embedFail : List Str → Except Str (List Vec) := fun _ => .error ['r', 'a', 't', 'e']

/-- The store after successfully indexing `C2doc1` into a fresh store. -/
def C2store1 : vector.StoreState :=
  (app.IndexDocument (fun s => s) C2embedOk ⟨none, 3072, [], [], 1⟩ C2doc1 false).store

/-- The outcome of the failing `IndexDocument` call on the changed
content. -/
def C2outcome : app.IndexOutcome :=
  app.IndexDocument (fun s => s) C2embedFail C2store1 C2doc2 false

/-- C2 (code bug): when the embedding batch fails, the failed
`IndexDocument` call has already upserted the document record with the
NEW content hash while the chunk rows still hold the OLD content's
chunks, so the store's state for the document IS changed by the failed
call, and a subsequent non-force `IndexDocument` of the same content is
a no-op (zero embedding calls) instead of performing the embedding
work — contrary to the claimed atomicity. -/
theorem C2_failed_index_commits_hash :
    (app.IndexDocument (fun s => s) C2embedOk ⟨none, 3072, [], [], 1⟩ C2doc1 false).result = .ok () ∧
    C2outcome.result = .error ['r', 'a', 't', 'e'] ∧
    vector.findDoc C2outcome.store ['p'] = some ⟨1, ['p'], ['T'], List.replicate 120 'b'⟩ ∧
    C2outcome.store.chunks = C2store1.chunks ∧
    C2store1.chunks.map (fun c => c.ChunkText) = [List.replicate 120 'a'] ∧
    app.IndexDocument (fun s => s) C2embedOk C2outcome.store C2doc2 false =
      ⟨.ok (), C2outcome.store, 0⟩ := by
  refine ⟨by decide, by decide, by decide, by decide, by decide, by decide⟩

/-! ## Claim C5 -/

namespace embedding

/-- The backoff in force before the `k`-th retry: 10s doubled `k` times,
capped at 120s. -/
def backoffSeq (k : Nat) : Nat := min (10 * 2 ^ k) 120

theorem backoffSeq_zero : backoffSeq 0 = InitialBackoff := rfl

theorem backoffSeq_succ (k : Nat) :
    min (backoffSeq k * 2) MaxBackoff = backoffSeq (k + 1) := by
  unfold backoffSeq MaxBackoff
  rcases le_or_lt (10 * 2 ^ k) 120 with h | h
  · rw [min_eq_left h, pow_succ]
    ring_nf
  · rw [min_eq_right h.le, min_eq_right, min_eq_right]
    · calc (120 : Nat) ≤ 10 * 2 ^ k := h.le
        _ ≤ 10 * 2 ^ (k + 1) :=
          Nat.mul_le_mul_left 10 (Nat.pow_le_pow_right (by omega) (by omega))
    · omega

/-- Unfolding: a successful call ends the loop at once. -/
theorem embedGroupLoop_ok (resp : Nat → Except Str (List Vec)) (cancel : Nat → Bool)
    (retry b : Nat) (v : List Vec) (h : resp retry = .ok v) :
    embedGroupLoop resp cancel retry b = ⟨.ok v, 1, []⟩ := by
  rw [embedGroupLoop.eq_def, h]

/-- Unfolding: a failed call either retries (rate limit, retries left,
not cancelled), surfaces the cancellation, or aborts with the wrapped
error. -/
theorem embedGroupLoop_err (resp : Nat → Except Str (List Vec)) (cancel : Nat → Bool)
    (retry b : Nat) (e : Str) (h : resp retry = .error e) :
    embedGroupLoop resp cancel retry b =
      if isRateLimitError e = true ∧ retry < MaxRetries then
        if cancel retry then ⟨.error .cancelled, 1, []⟩
        else
          ⟨(embedGroupLoop resp cancel (retry + 1) (min (b * 2) MaxBackoff)).result,
           (embedGroupLoop resp cancel (retry + 1) (min (b * 2) MaxBackoff)).calls + 1,
           b :: (embedGroupLoop resp cancel (retry + 1) (min (b * 2) MaxBackoff)).sleeps⟩
      else ⟨.error (.wrapped e), 1, []⟩ := by
  rw [embedGroupLoop.eq_def, h]
  simp only []
  by_cases hc : isRateLimitError e = true ∧ retry < MaxRetries
  · rw [dif_pos hc, if_pos hc]
  · rw [dif_neg hc, if_neg hc]

/-- Every completed backoff sleep sequence follows the doubling schedule
from the current backoff position. -/
theorem embedGroupLoop_sleeps_prefix (resp : Nat → Except Str (List Vec))
    (cancel : Nat → Bool) :
    ∀ (n retry : Nat), MaxRetries - retry = n →
      (embedGroupLoop resp cancel retry (backoffSeq retry)).sleeps <+:
        (List.range' retry n).map backoffSeq := by
  intro n
  induction n with
  | zero =>
    intro retry hn
    rcases hr : resp retry with e | v
    · rw [embedGroupLoop_err resp cancel retry _ e hr,
        if_neg (by rintro ⟨_, hlt⟩; omega)]
      exact List.nil_prefix
    · rw [embedGroupLoop_ok resp cancel retry _ v hr]
      exact List.nil_prefix
  | succ n ih =>
    intro retry hn
    rcases hr : resp retry with e | v
    · rw [embedGroupLoop_err resp cancel retry _ e hr]
      by_cases hrl : isRateLimitError e = true ∧ retry < MaxRetries
      · rw [if_pos hrl]
        by_cases hc : cancel retry
        · rw [if_pos hc]
          exact List.nil_prefix
        · rw [if_neg hc]
          simp only []
          rw [backoffSeq_succ]
          have htail := ih (retry + 1) (by omega)
          rw [List.range'_succ, List.map_cons]
          rcases htail with ⟨t, ht⟩
          exact ⟨t, by simp [← ht]⟩
      · rw [if_neg hrl]
        exact List.nil_prefix
    · rw [embedGroupLoop_ok resp cancel retry _ v hr]
      exact List.nil_prefix

/-- The loop makes one more network call than the number of completed
sleeps. -/
theorem embedGroupLoop_calls_eq (resp : Nat → Except Str (List Vec)) (cancel : Nat → Bool) :
    ∀ (n retry b : Nat), MaxRetries - retry = n →
      (embedGroupLoop resp cancel retry b).calls =
        (embedGroupLoop resp cancel retry b).sleeps.length + 1 := by
  intro n
  induction n with
  | zero =>
    intro retry b hn
    rcases hr : resp retry with e | v
    · rw [embedGroupLoop_err resp cancel retry b e hr,
        if_neg (by rintro ⟨_, hlt⟩; omega)]
      rfl
    · rw [embedGroupLoop_ok resp cancel retry b v hr]
      rfl
  | succ n ih =>
    intro retry b hn
    rcases hr : resp retry with e | v
    · rw [embedGroupLoop_err resp cancel retry b e hr]
      by_cases hrl : isRateLimitError e = true ∧ retry < MaxRetries
      · rw [if_pos hrl]
        by_cases hc : cancel retry
        · rw [if_pos hc]
          rfl
        · rw [if_neg hc]
          simp only [List.length_cons]
          rw [ih (retry + 1) (min (b * 2) MaxBackoff) (by omega)]
      · rw [if_neg hrl]
        rfl
    · rw [embedGroupLoop_ok resp cancel retry b v hr]
      rfl

/-- Persistent rate-limit failure exhausts all retries, sleeping the
full doubling schedule. -/
theorem embedGroupLoop_exhaust (resp : Nat → Except Str (List Vec)) (cancel : Nat → Bool)
    (errOf : Nat → Str) (hresp : ∀ k, resp k = .error (errOf k))
    (hrl : ∀ k, isRateLimitError (errOf k) = true) (hcancel : ∀ k, cancel k = false) :
    ∀ (n retry : Nat), retry + n = MaxRetries →
      embedGroupLoop resp cancel retry (backoffSeq retry) =
        ⟨.error (.wrapped (errOf MaxRetries)), n + 1, (List.range' retry n).map backoffSeq⟩ := by
  intro n
  induction n with
  | zero =>
    intro retry hn
    rw [embedGroupLoop_err resp cancel retry _ (errOf retry) (hresp retry),
      if_neg (by rintro ⟨_, hlt⟩; omega)]
    have : retry = MaxRetries := by omega
    rw [this]
    rfl
  | succ n ih =>
    intro retry hn
    rw [embedGroupLoop_err resp cancel retry _ (errOf retry) (hresp retry),
      if_pos ⟨hrl retry, by omega⟩,
      if_neg (by rw [hcancel retry]; exact Bool.false_ne_true)]
    rw [backoffSeq_succ, ih (retry + 1) (by omega)]
    rw [List.range'_succ, List.map_cons]

/-- A non-rate-limit failure aborts at once: one call, no sleep, no
retry. -/
theorem embedGroupLoop_aborts (resp : Nat → Except Str (List Vec)) (cancel : Nat → Bool)
    (retry b : Nat) (e : Str) (hresp : resp retry = .error e)
    (hnrl : isRateLimitError e = false) :
    embedGroupLoop resp cancel retry b = ⟨.error (.wrapped e), 1, []⟩ := by
  rw [embedGroupLoop_err resp cancel retry b e hresp,
    if_neg (by rintro ⟨h1, _⟩; rw [hnrl] at h1; exact Bool.false_ne_true h1)]

/-- Context cancellation during the pending backoff sleep surfaces the
cancellation instead of retrying. -/
theorem embedGroupLoop_cancelled (resp : Nat → Except Str (List Vec)) (cancel : Nat → Bool)
    (retry b : Nat) (e : Str) (hresp : resp retry = .error e)
    (hrl : isRateLimitError e = true) (hlt : retry < MaxRetries) (hc : cancel retry = true) :
    embedGroupLoop resp cancel retry b = ⟨.error .cancelled, 1, []⟩ := by
  rw [embedGroupLoop_err resp cancel retry b e hresp, if_pos ⟨hrl, hlt⟩, if_pos hc]

/-- `chunkList` covers the input in order. -/
theorem chunkList_join (n : Nat) (hn : n ≠ 0) :
    ∀ (m : Nat) (l : List Str), l.length ≤ m → (chunkList n l).flatten = l := by
  intro m
  induction m with
  | zero =>
    intro l hl
    have : l = [] := List.eq_nil_of_length_eq_zero (Nat.le_zero.mp hl)
    subst this
    rw [chunkList]
    simp
  | succ m ih =>
    intro l hl
    rw [chunkList]
    rcases l with _ | ⟨a, t⟩
    · simp
    · rw [dif_neg hn, dif_neg (by simp)]
      simp only [List.flatten_cons]
      rw [ih ((a :: t).drop n) (by simp only [List.length_drop, List.length_cons] at *; omega)]
      exact List.take_append_drop n (a :: t)

/-- Every group `chunkList` produces has at most `n` texts. -/
theorem chunkList_sizes (n : Nat) :
    ∀ (m : Nat) (l : List Str), l.length ≤ m →
      ∀ g ∈ chunkList n l, g.length ≤ n := by
  intro m
  induction m with
  | zero =>
    intro l hl g hg
    have : l = [] := List.eq_nil_of_length_eq_zero (Nat.le_zero.mp hl)
    subst this
    rw [chunkList] at hg
    simp at hg
  | succ m ih =>
    intro l hl g hg
    rw [chunkList] at hg
    by_cases hn : n = 0
    · rw [dif_pos hn] at hg
      exact absurd hg (List.not_mem_nil g)
    · rcases l with _ | ⟨a, t⟩
      · rw [dif_neg hn, dif_pos rfl] at hg
        simp at hg
      · rw [dif_neg hn, dif_neg (by simp)] at hg
        rcases List.mem_cons.mp hg with h | h
        · subst h
          exact List.length_take_le n (a :: t)
        · exact ih ((a :: t).drop n)
            (by simp only [List.length_drop, List.length_cons] at *; omega) g h

/-- When every group's first call succeeds, the batch makes exactly one
call per group. -/
theorem embedGroups_one_call (resp : Nat → Nat → Except Str (List Vec))
    (cancel : Nat → Nat → Bool) (hok : ∀ g, ∃ v, resp g 0 = .ok v) :
    ∀ (groups : List (List Str)) (gi : Nat),
      ∃ vs, embedGroups resp cancel groups gi = ⟨.ok vs, groups.length⟩ := by
  intro groups
  induction groups with
  | nil => exact fun gi => ⟨[], rfl⟩
  | cons g rest ih =>
    intro gi
    rcases hok gi with ⟨v, hv⟩
    have hloop : embedGroupLoop (resp gi) (cancel gi) 0 InitialBackoff = ⟨.ok v, 1, []⟩ :=
      embedGroupLoop_ok (resp gi) (cancel gi) 0 InitialBackoff v hv
    rcases ih (gi + 1) with ⟨vs, hvs⟩
    refine ⟨v ++ vs, ?_⟩
    unfold embedGroups
    rw [hloop]
    simp only []
    rw [hvs]
    simp [Nat.add_comm]

end embedding

/-- C5: the OpenAI provider's `EmbedBatch` splits the input into groups
of at most 2048 (covering it in order, one call per group when each
group succeeds at once); on a rate-limit error it retries the same group
with backoff 10s, doubling to a 120s cap, for at most 5 retries
(never more than 6 calls per group; exhausting retries surfaces the
wrapped error after sleeping 10,20,40,80,120); a non-rate-limit failure
aborts at once with no retry; and cancellation during a pending backoff
sleep surfaces the cancellation instead of retrying. -/
theorem C5_retry_backoff_policy :
    (∀ texts : List Str,
      (embedding.chunkList embedding.MaxBatchSize texts).flatten = texts) ∧
    (∀ (texts : List Str) g, g ∈ embedding.chunkList embedding.MaxBatchSize texts →
      g.length ≤ embedding.MaxBatchSize) ∧
    (∀ (resp : Nat → Nat → Except Str (List Vec)) (cancel : Nat → Nat → Bool)
      (texts : List Str), (∀ g, ∃ v, resp g 0 = Except.ok v) →
      ∃ vs, embedding.EmbedBatch resp cancel texts =
        ⟨.ok vs, (embedding.chunkList embedding.MaxBatchSize texts).length⟩) ∧
    (∀ (resp : Nat → Except Str (List Vec)) (cancel : Nat → Bool),
      (embedding.embedGroupLoop resp cancel 0 embedding.InitialBackoff).sleeps <+:
        [10, 20, 40, 80, 120]) ∧
    (∀ (resp : Nat → Except Str (List Vec)) (cancel : Nat → Bool),
      (embedding.embedGroupLoop resp cancel 0 embedding.InitialBackoff).calls ≤
        embedding.MaxRetries + 1) ∧
    (∀ (resp : Nat → Except Str (List Vec)) (cancel : Nat → Bool) (errOf : Nat → Str),
      (∀ k, resp k = .error (errOf k)) →
      (∀ k, embedding.isRateLimitError (errOf k) = true) → (∀ k, cancel k = false) →
      embedding.embedGroupLoop resp cancel 0 embedding.InitialBackoff =
        ⟨.error (.wrapped (errOf embedding.MaxRetries)), embedding.MaxRetries + 1,
         [10, 20, 40, 80, 120]⟩) ∧
    (∀ (resp : Nat → Except Str (List Vec)) (cancel : Nat → Bool) (retry b : Nat) (e : Str),
      resp retry = .error e →
      embedding.isRateLimitError e = false →
      embedding.embedGroupLoop resp cancel retry b = ⟨.error (.wrapped e), 1, []⟩) ∧
    (∀ (resp : Nat → Except Str (List Vec)) (cancel : Nat → Bool) (e : Str),
      resp 0 = .error e → embedding.isRateLimitError e = true →
      cancel 0 = true →
      embedding.embedGroupLoop resp cancel 0 embedding.InitialBackoff =
        ⟨.error .cancelled, 1, []⟩) := by
  refine ⟨?_, ?_, ?_, ?_, ?_, ?_, ?_, ?_⟩
  · intro texts
    exact embedding.chunkList_join embedding.MaxBatchSize (by decide) texts.length texts le_rfl
  · intro texts g hg
    exact embedding.chunkList_sizes embedding.MaxBatchSize texts.length texts le_rfl g hg
  · intro resp cancel texts hok
    unfold embedding.EmbedBatch
    by_cases ht : texts = []
    · rw [if_pos ht, ht]
      exact ⟨[], by rw [embedding.chunkList]; simp⟩
    · rw [if_neg ht]
      exact embedding.embedGroups_one_call resp cancel hok _ 0
  · intro resp cancel
    have h := embedding.embedGroupLoop_sleeps_prefix resp cancel embedding.MaxRetries 0 rfl
    rw [show embedding.backoffSeq 0 = embedding.InitialBackoff from rfl] at h
    exact h.trans (by rw [show (List.range' 0 embedding.MaxRetries).map embedding.backoffSeq =
      [10, 20, 40, 80, 120] from by decide])
  · intro resp cancel
    have hcalls := embedding.embedGroupLoop_calls_eq resp cancel embedding.MaxRetries 0
      embedding.InitialBackoff rfl
    have hpref := embedding.embedGroupLoop_sleeps_prefix resp cancel embedding.MaxRetries 0 rfl
    rw [show embedding.backoffSeq 0 = embedding.InitialBackoff from rfl] at hpref
    have hlen := hpref.length_le
    simp only [List.length_map, List.length_range'] at hlen
    omega
  · intro resp cancel errOf h1 h2 h3
    have h := embedding.embedGroupLoop_exhaust resp cancel errOf h1 h2 h3
      embedding.MaxRetries 0 (by decide)
    rw [show embedding.backoffSeq 0 = embedding.InitialBackoff from rfl] at h
    rw [h]
    rfl
  · exact fun resp cancel retry b e h1 h2 =>
      embedding.embedGroupLoop_aborts resp cancel retry b e h1 h2
  · exact fun resp cancel e h1 h2 h3 =>
      embedding.embedGroupLoop_cancelled resp cancel 0 embedding.InitialBackoff e h1 h2
        (by decide) h3

/-- Witness for C5: one call per group on immediate success; exhaustion
after the full 10,20,40,80,120 schedule on persistent "rate" errors; an
immediate abort on a non-rate-limit error; cancellation surfacing. -/
theorem C5_retry_backoff_policy_witness :
    (∃ vs, embedding.EmbedBatch (fun _ _ => Except.ok ([[0]] : List Vec)) (fun _ _ => false)
        [['a'], ['b']] =
      ⟨.ok vs, (embedding.chunkList embedding.MaxBatchSize [['a'], ['b']]).length⟩) ∧
    embedding.embedGroupLoop (fun _ => Except.error ['r', 'a', 't', 'e']) (fun _ => false) 0
        embedding.InitialBackoff =
      ⟨.error (.wrapped ['r', 'a', 't', 'e']), embedding.MaxRetries + 1,
       [10, 20, 40, 80, 120]⟩ ∧
    embedding.embedGroupLoop (fun _ => Except.error ['x']) (fun _ => false) 3 7 =
      ⟨.error (.wrapped ['x']), 1, []⟩ ∧
    embedding.embedGroupLoop (fun _ => Except.error ['r', 'a', 't', 'e']) (fun _ => true) 0
        embedding.InitialBackoff = ⟨.error .cancelled, 1, []⟩ :=
  ⟨C5_retry_backoff_policy.2.2.1 _ _ [['a'], ['b']] (fun _ => ⟨[[0]], rfl⟩),
   C5_retry_backoff_policy.2.2.2.2.2.1 _ _ (fun _ => ['r', 'a', 't', 'e'])
     (fun _ => rfl)
     (fun _ => show embedding.isRateLimitError ['r', 'a', 't', 'e'] = true by decide)
     (fun _ => rfl),
   C5_retry_backoff_policy.2.2.2.2.2.2.1 _ _ 3 7 ['x'] rfl (by decide),
   C5_retry_backoff_policy.2.2.2.2.2.2.2 _ _ ['r', 'a', 't', 'e'] rfl (by decide) rfl⟩

/-! ## String lemmas for the chunker proofs -/

namespace chunking

theorem dropWhile_head_false (p : Char → Bool) (l : Str) :
    ∀ c ∈ (l.dropWhile p).head?, p c = false := by
  intro c hc
  have h := List.head?_dropWhile_not p l
  rcases hh : (l.dropWhile p).head? with _ | d
  · rw [hh] at hc
    exact absurd hc (by simp)
  · rw [hh] at hc h
    simp only [Option.mem_def, Option.some.injEq] at hc
    subst hc
    simpa using h

theorem trimLeft_head (l : Str) : ∀ c ∈ (trimLeft l).head?, goIsSpace c = false :=
  dropWhile_head_false goIsSpace l

theorem trimRight_getLast (l : Str) : ∀ c ∈ (trimRight l).getLast?, goIsSpace c = false := by
  intro c hc
  unfold trimRight at hc
  rw [List.getLast?_reverse] at hc
  exact dropWhile_head_false goIsSpace l.reverse c hc

theorem trimLeft_eq_self (l : Str) (h : ∀ c ∈ l.head?, goIsSpace c = false) :
    trimLeft l = l := by
  unfold trimLeft
  rcases l with _ | ⟨c, t⟩
  · rfl
  · rw [List.dropWhile_cons, if_neg]
    rw [h c rfl]
    simp

theorem trimRight_eq_self (l : Str) (h : ∀ c ∈ l.getLast?, goIsSpace c = false) :
    trimRight l = l := by
  unfold trimRight
  have hrev : l.reverse.dropWhile goIsSpace = l.reverse := by
    rcases hl : l.reverse with _ | ⟨c, t⟩
    · rfl
    · rw [List.dropWhile_cons, if_neg]
      have hmem : c ∈ l.getLast? := by
        rw [← List.head?_reverse, hl]
        rfl
      rw [h c hmem]
      simp
  rw [hrev, List.reverse_reverse]

theorem trimRight_prefix (l : Str) : trimRight l <+: l := by
  conv_rhs => rw [← List.reverse_reverse l]
  unfold trimRight
  rw [List.reverse_prefix]
  exact List.dropWhile_suffix goIsSpace

theorem trimSpace_head (s : Str) : ∀ c ∈ (trimSpace s).head?, goIsSpace c = false := by
  intro c hc
  unfold trimSpace at hc
  rcases htr : trimRight (trimLeft s) with _ | ⟨d, t⟩
  · rw [htr] at hc
    exact absurd hc (by simp)
  · rw [htr] at hc
    simp only [List.head?_cons, Option.mem_def, Option.some.injEq] at hc
    subst hc
    rcases trimRight_prefix (trimLeft s) with ⟨tail, htail⟩
    rw [htr] at htail
    exact trimLeft_head s d (by rw [← htail]; rfl)

theorem trimSpace_getLast (s : Str) : ∀ c ∈ (trimSpace s).getLast?, goIsSpace c = false :=
  trimRight_getLast (trimLeft s)

theorem trimSpace_idem (s : Str) : trimSpace (trimSpace s) = trimSpace s := by
  have h1 : trimLeft (trimSpace s) = trimSpace s := trimLeft_eq_self _ (trimSpace_head s)
  show trimRight (trimLeft (trimSpace s)) = trimSpace s
  rw [h1]
  exact trimRight_eq_self _ (trimSpace_getLast s)

theorem trimLeft_append_nonws (a b : Str) (h : ∃ c ∈ a, goIsSpace c = false) :
    trimLeft (a ++ b) = trimLeft a ++ b := by
  unfold trimLeft
  rw [List.dropWhile_append, if_neg]
  rcases h with ⟨c, hc, hws⟩
  intro hemp
  rw [List.isEmpty_iff] at hemp
  have := List.dropWhile_eq_nil_iff.mp hemp c hc
  rw [hws] at this
  exact Bool.false_ne_true this

theorem trimRight_append_nonws (a b : Str) (h : ∃ c ∈ b, goIsSpace c = false) :
    trimRight (a ++ b) = a ++ trimRight b := by
  unfold trimRight
  rw [List.reverse_append, List.dropWhile_append, if_neg, List.reverse_append,
    List.reverse_reverse]
  rcases h with ⟨c, hc, hws⟩
  intro hemp
  rw [List.isEmpty_iff] at hemp
  have := List.dropWhile_eq_nil_iff.mp hemp c (by rwa [List.mem_reverse])
  rw [hws] at this
  exact Bool.false_ne_true this

theorem trimLeft_prefix_trimSpace_append (a b : Str)
    (ha : ∃ c ∈ a, goIsSpace c = false) (hb : ∃ c ∈ b, goIsSpace c = false) :
    trimLeft a <+: trimSpace (a ++ b) := by
  show trimLeft a <+: trimRight (trimLeft (a ++ b))
  rw [trimLeft_append_nonws a b ha, trimRight_append_nonws (trimLeft a) b hb]
  exact List.prefix_append _ _

theorem trimSpace_eq_nil_iff (l : Str) :
    trimSpace l = [] ↔ ∀ c ∈ l, goIsSpace c = true := by
  constructor
  · intro h
    have h2 : ∀ c ∈ trimLeft l, goIsSpace c = true := by
      intro c hc
      unfold trimSpace trimRight at h
      rw [List.reverse_eq_nil_iff] at h
      exact List.dropWhile_eq_nil_iff.mp h c (by rwa [List.mem_reverse])
    have h3 : trimLeft l = [] := by
      rcases hx : trimLeft l with _ | ⟨x, t⟩
      · rfl
      · have hxf : goIsSpace x = false := trimLeft_head l x (by rw [hx]; rfl)
        have hxt : goIsSpace x = true := h2 x (by rw [hx]; exact List.mem_cons_self x t)
        rw [hxf] at hxt
        exact absurd hxt Bool.false_ne_true
    intro c hc
    unfold trimLeft at h3
    exact List.dropWhile_eq_nil_iff.mp h3 c hc
  · intro h
    have h1 : trimLeft l = [] := List.dropWhile_eq_nil_iff.mpr h
    unfold trimSpace
    rw [h1]
    rfl

theorem getLastNChars_suffix (s : Str) (n : Int) : getLastNChars s n <:+ s := by
  unfold getLastNChars
  split
  · exact List.suffix_refl s
  · simp only []
    rcases hfind : (s.drop (s.length - n.toNat)).findIdx? (· = ' ') with _ | idx
    · simp only [hfind]
      exact List.drop_suffix _ _
    · simp only [hfind]
      split
      · exact List.IsSuffix.trans (List.drop_suffix _ _) (List.drop_suffix _ _)
      · exact List.drop_suffix _ _

theorem getLastNChars_length_pos (s : Str) (n : Int)
    (h1 : 0 < n) (h2 : ¬ (s.length : Int) ≤ n) : 0 < (getLastNChars s n).length := by
  unfold getLastNChars
  rw [if_neg h2]
  simp only []
  have hlen : (s.drop (s.length - n.toNat)).length = n.toNat := by
    rw [List.length_drop]
    omega
  rcases hfind : (s.drop (s.length - n.toNat)).findIdx? (· = ' ') with _ | idx
  · simp only [hfind, hlen]
    omega
  · simp only [hfind]
    split
    · next hidx =>
      rw [List.length_drop, hlen]
      rw [hlen] at hidx
      omega
    · rw [hlen]
      omega

theorem getLastNChars_has_nonws (x : Str) (o : Int)
    (h1 : 0 < o) (h2 : ¬ ((trimSpace x).length : Int) ≤ o) :
    ∃ c ∈ getLastNChars (trimSpace x) o, goIsSpace c = false := by
  have hne : getLastNChars (trimSpace x) o ≠ [] :=
    List.ne_nil_of_length_pos (getLastNChars_length_pos _ o h1 h2)
  rcases getLastNChars_suffix (trimSpace x) o with ⟨pre, hpre⟩
  have hlast : (getLastNChars (trimSpace x) o).getLast? = (trimSpace x).getLast? := by
    conv_rhs => rw [← hpre]
    exact (List.getLast?_append_of_ne_nil pre hne).symm
  rcases hg : (getLastNChars (trimSpace x) o).getLast? with _ | c
  · rw [List.getLast?_eq_none_iff] at hg
    exact absurd hg hne
  · refine ⟨c, ?_, ?_⟩
    · rcases List.mem_getLast?_eq_getLast
        (show c ∈ (getLastNChars (trimSpace x) o).getLast? from hg) with ⟨hne2, hc⟩
      rw [hc]
      exact List.getLast_mem hne2
    · exact trimSpace_getLast x c (by rw [← hlast, hg]; rfl)

end chunking

/-! ## Packing-loop invariants (indices, titles, minimum size) -/

namespace chunking

theorem range'_snoc (k n : Nat) : List.range' k n ++ [k + n] = List.range' k (n + 1) := by
  have hap := List.range'_append k n 1 1
  simp only [one_mul] at hap
  rw [Nat.add_comm n 1, ← hap, List.range'_one]

/-- `closeChunk` with its local variables expanded (definitional). -/
theorem closeChunk_eq (title : Str) (ov : Int) (s : PackState) :
    closeChunk title ov s =
      { (if MinChunkSize ≤ (trimSpace s.buffer).length then
            { s with
              chunks := s.chunks ++
                [⟨s.chunkIndex, trimSpace s.buffer, title, s.chunkStart, s.currentOffset⟩],
              chunkIndex := s.chunkIndex + 1 }
          else s) with
        buffer :=
          if 0 < ov ∧ ov < ((trimSpace s.buffer).length : Int) then
            getLastNChars (trimSpace s.buffer) ov ++ nl2
          else [],
        chunkStart := s.currentOffset - getOverlapText (trimSpace s.buffer) ov } := rfl

/-- `packStep` with its local variables expanded (definitional). -/
theorem packStep_eq (title : Str) (m o : Int) (s : PackState) (para : Str) :
    packStep title m o s para =
      { (if 0 < s.buffer.length ∧ m < (s.buffer.length : Int) + para.length + 2 then
            closeChunk title o s
          else s) with
        buffer :=
          (if 0 < s.buffer.length ∧ m < (s.buffer.length : Int) + para.length + 2 then
              closeChunk title o s
            else s).buffer ++ para ++ nl2,
        currentOffset :=
          (if 0 < s.buffer.length ∧ m < (s.buffer.length : Int) + para.length + 2 then
              closeChunk title o s
            else s).currentOffset + para.length + 2 } := rfl

/-- `finalClose` with its local variable expanded (definitional). -/
theorem finalClose_eq (title : Str) (s : PackState) :
    finalClose title s =
      if MinChunkSize ≤ (trimSpace s.buffer).length then
        s.chunks ++ [⟨s.chunkIndex, trimSpace s.buffer, title, s.chunkStart, s.currentOffset⟩]
      else s.chunks := rfl

/-- `splitLargeSection` with its local variables expanded
(definitional). -/
theorem splitLargeSection_eq (text title : Str) (opts : Options)
    (startIndex : Nat) (startOffset : Int) :
    splitLargeSection text title opts startIndex startOffset =
      if ((trimSpace text).length : Int) ≤ opts.MaxChunkSize then
        [⟨startIndex, trimSpace text, title, startOffset,
          startOffset + (trimSpace text).length⟩]
      else
        finalClose title ((splitIntoParagraphs (trimSpace text)).foldl
          (packStep title opts.MaxChunkSize opts.OverlapSize)
          ⟨[], startIndex, startOffset, startOffset, []⟩) := rfl

theorem packStep_chunks (title : Str) (m o : Int) (s : PackState) (para : Str) :
    ∃ d : List Chunk,
      (packStep title m o s para).chunks = s.chunks ++ d ∧
      (packStep title m o s para).chunkIndex = s.chunkIndex + d.length ∧
      d.map Chunk.Index = List.range' s.chunkIndex d.length ∧
      (∀ c ∈ d, c.SectionTitle = title ∧ trimSpace c.Text = c.Text ∧
        MinChunkSize ≤ c.Text.length) := by
  rw [packStep_eq]
  by_cases hcl : 0 < s.buffer.length ∧ m < (s.buffer.length : Int) + para.length + 2
  · rw [if_pos hcl, closeChunk_eq]
    by_cases hmin : MinChunkSize ≤ (trimSpace s.buffer).length
    · rw [if_pos hmin]
      refine ⟨[⟨s.chunkIndex, trimSpace s.buffer, title, s.chunkStart, s.currentOffset⟩],
        rfl, rfl, by simp, ?_⟩
      intro c hc
      simp only [List.mem_singleton] at hc
      subst hc
      exact ⟨rfl, trimSpace_idem _, hmin⟩
    · rw [if_neg hmin]
      exact ⟨[], by simp, by simp, rfl, by simp⟩
  · rw [if_neg hcl]
    exact ⟨[], by simp, by simp, rfl, by simp⟩

theorem pack_fold_spec (title : Str) (m o : Int) :
    ∀ (paras : List Str) (s : PackState),
      ∃ new : List Chunk,
        (paras.foldl (packStep title m o) s).chunks = s.chunks ++ new ∧
        (paras.foldl (packStep title m o) s).chunkIndex = s.chunkIndex + new.length ∧
        new.map Chunk.Index = List.range' s.chunkIndex new.length ∧
        (∀ c ∈ new, c.SectionTitle = title ∧ trimSpace c.Text = c.Text ∧
          MinChunkSize ≤ c.Text.length) := by
  intro paras
  induction paras with
  | nil => exact fun s => ⟨[], by simp, by simp, rfl, by simp⟩
  | cons para rest ih =>
    intro s
    rcases packStep_chunks title m o s para with ⟨d, hd1, hd2, hd3, hd4⟩
    rcases ih (packStep title m o s para) with ⟨new2, h1, h2, h3, h4⟩
    refine ⟨d ++ new2, ?_, ?_, ?_, ?_⟩
    · rw [List.foldl_cons, h1, hd1, List.append_assoc]
    · rw [List.foldl_cons, h2, hd2, List.length_append]
      omega
    · rw [List.map_append, hd3, h3, hd2, List.length_append]
      have := List.range'_append s.chunkIndex d.length new2.length 1
      simp only [one_mul] at this
      rw [this, Nat.add_comm new2.length d.length]
    · intro c hc
      rcases List.mem_append.mp hc with h | h
      · exact hd4 c h
      · exact h4 c h

/-- The specification of `splitLargeSection`: dense indices starting at
`startIndex`, the section's title on every chunk, trimmed texts, and
(under the caller's guarantee that the trimmed section meets the
minimum) the minimum chunk size. -/
theorem splitLargeSection_spec (text title : Str) (opts : Options)
    (startIndex : Nat) (startOffset : Int) :
    (splitLargeSection text title opts startIndex startOffset).map Chunk.Index =
      List.range' startIndex (splitLargeSection text title opts startIndex startOffset).length ∧
    (∀ c ∈ splitLargeSection text title opts startIndex startOffset,
      c.SectionTitle = title ∧ trimSpace c.Text = c.Text) ∧
    (MinChunkSize ≤ (trimSpace text).length →
      ∀ c ∈ splitLargeSection text title opts startIndex startOffset,
        MinChunkSize ≤ c.Text.length) := by
  rw [splitLargeSection_eq]
  split
  · refine ⟨by simp, ?_, ?_⟩
    · intro c hc
      simp only [List.mem_singleton] at hc
      subst hc
      exact ⟨rfl, trimSpace_idem _⟩
    · intro hmin c hc
      simp only [List.mem_singleton] at hc
      subst hc
      exact hmin
  · rcases pack_fold_spec title opts.MaxChunkSize opts.OverlapSize
      (splitIntoParagraphs (trimSpace text)) ⟨[], startIndex, startOffset, startOffset, []⟩
      with ⟨new, h1, h2, h3, h4⟩
    simp only [List.nil_append] at h1 h2 h3
    rw [finalClose_eq]
    split
    · next hmin =>
      refine ⟨?_, ?_, ?_⟩
      · rw [h1, h2, List.map_append, h3]
        simp only [List.map_cons, List.map_nil, List.length_append, List.length_cons,
          List.length_nil]
        exact range'_snoc startIndex new.length
      · intro c hc
        rw [h1] at hc
        rcases List.mem_append.mp hc with h | h
        · exact ⟨(h4 c h).1, (h4 c h).2.1⟩
        · simp only [List.mem_singleton] at h
          subst h
          exact ⟨rfl, trimSpace_idem _⟩
      · intro _ c hc
        rw [h1] at hc
        rcases List.mem_append.mp hc with h | h
        · exact (h4 c h).2.2
        · simp only [List.mem_singleton] at h
          subst h
          exact hmin
    · refine ⟨?_, ?_, ?_⟩
      · rw [h1]
        exact h3
      · intro c hc
        rw [h1] at hc
        exact ⟨(h4 c hc).1, (h4 c hc).2.1⟩
      · intro _ c hc
        rw [h1] at hc
        exact (h4 c hc).2.2

end chunking

/-! ## ChunkMarkdown-level invariants -/

namespace chunking

/-- The adjusted options computed at the head of `ChunkMarkdown`. -/
def mdOpts (opts0 : Options) : Options :=
  ⟨if opts0.MaxChunkSize ≤ 0 then DefaultMaxChunkSize else opts0.MaxChunkSize,
   if opts0.OverlapSize < 0 then DefaultOverlapSize else opts0.OverlapSize⟩

/-- `flushSection` with its local variables expanded (definitional). -/
theorem flushSection_eq (opts : Options) (s : MdState) :
    flushSection opts s =
      if (trimSpace s.currentSection).length < MinChunkSize then s
      else
        { s with
          chunks := s.chunks ++ splitLargeSection (trimSpace s.currentSection) s.currentTitle
            opts s.chunkIndex s.sectionStart,
          chunkIndex := s.chunkIndex + (splitLargeSection (trimSpace s.currentSection)
            s.currentTitle opts s.chunkIndex s.sectionStart).length } := rfl

/-- `mdStep` on a non-heading line only appends the line to the current
section and advances the offset. -/
theorem mdStep_none (opts : Options) (s : MdState) (line : Str)
    (h : parseHeader line = none) :
    mdStep opts s line =
      { s with currentSection := s.currentSection ++ line ++ ['\n'],
               offset := s.offset + ((line.length : Int) + 1) } := by
  simp only [mdStep, h]

/-- `mdStep` on a heading line flushes the section and starts a new one
titled with the heading capture. -/
theorem mdStep_some (opts : Options) (s : MdState) (line : Str) (t : Str)
    (h : parseHeader line = some t) :
    mdStep opts s line =
      { flushSection opts s with currentSection := [] ++ line ++ ['\n'],
                                 currentTitle := t,
                                 sectionStart := (flushSection opts s).offset,
                                 offset := (flushSection opts s).offset +
                                   ((line.length : Int) + 1) } := by
  simp only [mdStep, h]

/-- `ChunkMarkdown` with its local variables expanded (definitional). -/
theorem ChunkMarkdown_eq (content : Str) (opts0 : Options) :
    ChunkMarkdown content opts0 =
      if (flushSection (mdOpts opts0)
            ((splitLines content).foldl (mdStep (mdOpts opts0)) ⟨[], [], [], 0, 0, 0⟩)).chunks = [] ∧
          MinChunkSize ≤ (trimSpace content).length then
        splitLargeSection content [] (mdOpts opts0) 0 0
      else
        (flushSection (mdOpts opts0)
          ((splitLines content).foldl (mdStep (mdOpts opts0)) ⟨[], [], [], 0, 0, 0⟩)).chunks := rfl

/-- `parseHeader` with its local variables expanded (definitional). -/
theorem parseHeader_eq (line : Str) :
    parseHeader line =
      if 1 ≤ (line.takeWhile (· = '#')).length ∧ (line.takeWhile (· = '#')).length ≤ 6 then
        if (line.drop (line.takeWhile (· = '#')).length).takeWhile reIsSpace = [] then none
        else if (line.drop (line.takeWhile (· = '#')).length).drop
            ((line.drop (line.takeWhile (· = '#')).length).takeWhile reIsSpace).length ≠ [] then
          some ((line.drop (line.takeWhile (· = '#')).length).drop
            ((line.drop (line.takeWhile (· = '#')).length).takeWhile reIsSpace).length)
        else if 2 ≤ ((line.drop (line.takeWhile (· = '#')).length).takeWhile reIsSpace).length then
          some [((line.drop (line.takeWhile (· = '#')).length).takeWhile
            reIsSpace).getLast?.getD ' ']
        else none
      else none := rfl

/-- `flushSection` preserves the density and size invariants. -/
theorem flushSection_inv (opts : Options) (s : MdState)
    (hidx : s.chunkIndex = s.chunks.length)
    (hmap : s.chunks.map Chunk.Index = List.range' 0 s.chunks.length)
    (hprops : ∀ c ∈ s.chunks, trimSpace c.Text = c.Text ∧ MinChunkSize ≤ c.Text.length) :
    (flushSection opts s).chunkIndex = (flushSection opts s).chunks.length ∧
    (flushSection opts s).chunks.map Chunk.Index =
      List.range' 0 (flushSection opts s).chunks.length ∧
    (∀ c ∈ (flushSection opts s).chunks,
      trimSpace c.Text = c.Text ∧ MinChunkSize ≤ c.Text.length) := by
  rw [flushSection_eq]
  split
  · exact ⟨hidx, hmap, hprops⟩
  · next hbig =>
    rcases splitLargeSection_spec (trimSpace s.currentSection) s.currentTitle opts
      s.chunkIndex s.sectionStart with ⟨g1, g2, g3⟩
    have hminsec : MinChunkSize ≤ (trimSpace (trimSpace s.currentSection)).length := by
      rw [trimSpace_idem]
      omega
    refine ⟨?_, ?_, ?_⟩
    · simp only [List.length_append]
      omega
    · rw [hidx] at g1 ⊢
      simp only [List.map_append, hmap, g1, List.length_append]
      have hap := List.range'_append 0 s.chunks.length
        (splitLargeSection (trimSpace s.currentSection) s.currentTitle opts
          s.chunks.length s.sectionStart).length 1
      simp only [one_mul, Nat.zero_add] at hap
      rw [hap, Nat.add_comm]
    · intro c hc
      rcases List.mem_append.mp hc with h | h
      · exact hprops c h
      · exact ⟨(g2 c h).2, g3 hminsec c h⟩

/-- `mdStep` preserves the density and size invariants. -/
theorem mdStep_inv (opts : Options) (s : MdState) (line : Str)
    (hidx : s.chunkIndex = s.chunks.length)
    (hmap : s.chunks.map Chunk.Index = List.range' 0 s.chunks.length)
    (hprops : ∀ c ∈ s.chunks, trimSpace c.Text = c.Text ∧ MinChunkSize ≤ c.Text.length) :
    (mdStep opts s line).chunkIndex = (mdStep opts s line).chunks.length ∧
    (mdStep opts s line).chunks.map Chunk.Index =
      List.range' 0 (mdStep opts s line).chunks.length ∧
    (∀ c ∈ (mdStep opts s line).chunks,
      trimSpace c.Text = c.Text ∧ MinChunkSize ≤ c.Text.length) := by
  rcases hh : parseHeader line with _ | t
  · rw [mdStep_none opts s line hh]
    exact ⟨hidx, hmap, hprops⟩
  · rw [mdStep_some opts s line t hh]
    exact flushSection_inv opts s hidx hmap hprops

/-- The line fold of `ChunkMarkdown` preserves the invariants. -/
theorem md_fold_inv (opts : Options) :
    ∀ (lines : List Str) (s : MdState),
      s.chunkIndex = s.chunks.length →
      s.chunks.map Chunk.Index = List.range' 0 s.chunks.length →
      (∀ c ∈ s.chunks, trimSpace c.Text = c.Text ∧ MinChunkSize ≤ c.Text.length) →
      (lines.foldl (mdStep opts) s).chunkIndex = (lines.foldl (mdStep opts) s).chunks.length ∧
      (lines.foldl (mdStep opts) s).chunks.map Chunk.Index =
        List.range' 0 (lines.foldl (mdStep opts) s).chunks.length ∧
      (∀ c ∈ (lines.foldl (mdStep opts) s).chunks,
        trimSpace c.Text = c.Text ∧ MinChunkSize ≤ c.Text.length) := by
  intro lines
  induction lines with
  | nil => exact fun s h1 h2 h3 => ⟨h1, h2, h3⟩
  | cons line rest ih =>
    intro s h1 h2 h3
    rcases mdStep_inv opts s line h1 h2 h3 with ⟨g1, g2, g3⟩
    exact ih (mdStep opts s line) g1 g2 g3

/-- Characters of each produced line come from the split string. -/
theorem splitLines_mem : ∀ (s : Str), ∀ l ∈ splitLines s, ∀ c ∈ l, c ∈ s := by
  intro s
  induction s with
  | nil =>
    intro l hl c hc
    simp only [splitLines, List.mem_singleton] at hl
    subst hl
    exact absurd hc (List.not_mem_nil c)
  | cons a rest ih =>
    intro l hl c hc
    simp only [splitLines] at hl
    by_cases ha : a = '\n'
    · rw [if_pos ha] at hl
      rcases List.mem_cons.mp hl with h | h
      · subst h
        exact absurd hc (List.not_mem_nil c)
      · exact List.mem_cons_of_mem a (ih l h c hc)
    · rw [if_neg ha] at hl
      rcases hsp : splitLines rest with _ | ⟨l0, ls⟩
      · rw [hsp] at hl
        simp only [List.mem_singleton] at hl
        subst hl
        simp only [List.mem_singleton] at hc
        subst hc
        exact List.mem_cons_self c rest
      · rw [hsp] at hl
        rcases List.mem_cons.mp hl with h | h
        · subst h
          rcases List.mem_cons.mp hc with h2 | h2
          · subst h2
            exact List.mem_cons_self c rest
          · refine List.mem_cons_of_mem a (ih l0 ?_ c h2)
            rw [hsp]
            exact List.mem_cons_self l0 ls
        · refine List.mem_cons_of_mem a (ih l ?_ c hc)
          rw [hsp]
          exact List.mem_cons_of_mem l0 h

/-- A whitespace-only line is not a markdown heading. -/
theorem parseHeader_ws_none (line : Str) (h : ∀ c ∈ line, goIsSpace c = true) :
    parseHeader line = none := by
  have htw : line.takeWhile (· = '#') = [] := by
    rcases line with _ | ⟨c, t⟩
    · rfl
    · rw [List.takeWhile_cons, if_neg]
      intro hc
      rw [decide_eq_true_eq] at hc
      subst hc
      exact absurd (h '#' (List.mem_cons_self _ _)) (by decide)
  rw [parseHeader_eq, htw]
  simp

/-- On whitespace-only lines the fold produces no chunks and keeps the
section whitespace-only. -/
theorem md_fold_ws (opts : Options) :
    ∀ (lines : List Str) (s : MdState),
      (∀ l ∈ lines, ∀ c ∈ l, goIsSpace c = true) →
      s.chunks = [] → (∀ c ∈ s.currentSection, goIsSpace c = true) →
      (lines.foldl (mdStep opts) s).chunks = [] ∧
      (∀ c ∈ (lines.foldl (mdStep opts) s).currentSection, goIsSpace c = true) := by
  intro lines
  induction lines with
  | nil => exact fun s _ h1 h2 => ⟨h1, h2⟩
  | cons line rest ih =>
    intro s hws h1 h2
    have hline : ∀ c ∈ line, goIsSpace c = true := hws line (List.mem_cons_self _ _)
    have hstep1 : (mdStep opts s line).chunks = [] := by
      rw [mdStep_none opts s line (parseHeader_ws_none line hline)]
      exact h1
    have hstep2 : ∀ c ∈ (mdStep opts s line).currentSection, goIsSpace c = true := by
      rw [mdStep_none opts s line (parseHeader_ws_none line hline)]
      intro c hc
      simp only [List.append_assoc, List.mem_append, List.mem_singleton] at hc
      rcases hc with h | h | h
      · exact h2 c h
      · exact hline c h
      · subst h
        decide
    exact ih (mdStep opts s line) (fun l hl => hws l (List.mem_cons_of_mem _ hl)) hstep1 hstep2

end chunking

/-! ## Claim C3 -/

/-- C3 counterexample: with `maxSize = 150`, a single 200-character
paragraph (a section of 200 characters, so not a section within the
limit) is emitted as one chunk of 200 characters — the claimed
max-size bound fails. -/
theorem C3_counterexample :
    (chunking.trimSpace (List.replicate 200 'a')).length = 200 ∧
    ¬ ∀ c ∈ chunking.ChunkMarkdown (List.replicate 200 'a')
        ({ MaxChunkSize := 150, OverlapSize := 150 } : chunking.Options),
      c.Text.length ≤ 150 := by
  constructor
  · decide
  · decide

/-- C3 (amended): chunk indices are assigned densely as 0..n-1 in
production order; every chunk's trimmed text length is at least
`MinChunkSize`; empty or whitespace-only input yields zero chunks; and a
section whose trimmed text is within `MaxChunkSize` (boundary `≤`) is
kept whole as a single chunk.  (The original max-size bound is dropped:
a single paragraph longer than `maxSize`, or an overlap seed plus a
paragraph, can produce an oversized chunk.) -/
theorem C3_chunk_invariants (content : Str) (opts : chunking.Options) :
    (chunking.ChunkMarkdown content opts).map chunking.Chunk.Index =
      List.range (chunking.ChunkMarkdown content opts).length ∧
    (∀ c ∈ chunking.ChunkMarkdown content opts,
      chunking.MinChunkSize ≤ (chunking.trimSpace c.Text).length) ∧
    (chunking.trimSpace content = [] → chunking.ChunkMarkdown content opts = []) ∧
    (∀ (text title : Str) (o2 : chunking.Options) (k : Nat) (off : Int),
      ((chunking.trimSpace text).length : Int) ≤ o2.MaxChunkSize →
      chunking.splitLargeSection text title o2 k off =
        [⟨k, chunking.trimSpace text, title, off,
          off + (chunking.trimSpace text).length⟩]) := by
  have hstart : ∀ c ∈ ([] : List chunking.Chunk),
      chunking.trimSpace c.Text = c.Text ∧ chunking.MinChunkSize ≤ c.Text.length :=
    fun c hc => absurd hc (List.not_mem_nil c)
  rcases chunking.md_fold_inv (chunking.mdOpts opts) (chunking.splitLines content)
    ⟨[], [], [], 0, 0, 0⟩ rfl rfl hstart with ⟨b1, b2, b3⟩
  rcases chunking.flushSection_inv (chunking.mdOpts opts) _ b1 b2 b3 with ⟨f1, f2, f3⟩
  refine ⟨?_, ?_, ?_, ?_⟩
  · rw [chunking.ChunkMarkdown_eq]
    split
    · rcases chunking.splitLargeSection_spec content [] (chunking.mdOpts opts) 0 0
        with ⟨g1, _, _⟩
      rw [List.range_eq_range']
      exact g1
    · rw [List.range_eq_range']
      exact f2
  · rw [chunking.ChunkMarkdown_eq]
    split
    · next hcond =>
      rcases chunking.splitLargeSection_spec content [] (chunking.mdOpts opts) 0 0
        with ⟨_, g2, g3⟩
      intro c hc
      rw [(g2 c hc).2]
      exact g3 hcond.2 c hc
    · intro c hc
      rw [(f3 c hc).1]
      exact (f3 c hc).2
  · intro hws
    have hall : ∀ c ∈ content, chunking.goIsSpace c = true :=
      (chunking.trimSpace_eq_nil_iff content).mp hws
    have hlines : ∀ l ∈ chunking.splitLines content, ∀ c ∈ l, chunking.goIsSpace c = true :=
      fun l hl c hc => hall c (chunking.splitLines_mem content l hl c hc)
    rcases chunking.md_fold_ws (chunking.mdOpts opts) (chunking.splitLines content)
      ⟨[], [], [], 0, 0, 0⟩ hlines rfl
      (fun c hc => absurd hc (List.not_mem_nil c)) with ⟨w1, w2⟩
    have hflush : (chunking.flushSection (chunking.mdOpts opts)
        ((chunking.splitLines content).foldl (chunking.mdStep (chunking.mdOpts opts))
          ⟨[], [], [], 0, 0, 0⟩)).chunks = [] := by
      rw [chunking.flushSection_eq,
        if_pos (by rw [(chunking.trimSpace_eq_nil_iff _).mpr w2]; decide)]
      exact w1
    rw [chunking.ChunkMarkdown_eq,
      if_neg (by
        rintro ⟨_, hmin⟩
        rw [hws] at hmin
        exact absurd hmin (by decide))]
    exact hflush
  · intro text title o2 k off h
    rw [chunking.splitLargeSection_eq, if_pos h]

/-- Witness for C3: whitespace-only input yields zero chunks, and a
section of exactly 150 characters with `maxSize = 150` is kept whole. -/
theorem C3_chunk_invariants_witness :
    chunking.ChunkMarkdown [' ', '\n', '\t'] chunking.DefaultOptions = [] ∧
    chunking.splitLargeSection (List.replicate 150 'a') ['t'] ⟨150, 10⟩ 0 0 =
      [⟨0, chunking.trimSpace (List.replicate 150 'a'), ['t'], 0,
        0 + (chunking.trimSpace (List.replicate 150 'a')).length⟩] :=
  ⟨(C3_chunk_invariants [' ', '\n', '\t'] chunking.DefaultOptions).2.2.1 (by decide),
   (C3_chunk_invariants [] chunking.DefaultOptions).2.2.2 (List.replicate 150 'a') ['t']
     ⟨150, 10⟩ 0 0 (by decide)⟩

/-! ## Claim C1: the overlap-seed contract of the size-splitter -/

namespace chunking

/-- The successive closed buffer texts of the packing loop (including
buffers later discarded for being under `MinChunkSize`, and the final
buffer): the same close condition and overlap seeding as `packStep` /
`closeChunk`, tracking only the buffer. -/
def closedTexts (maxSize ov : Int) : List Str → Str → List Str
  | [], buf => [trimSpace buf]
  | para :: rest, buf =>
    if 0 < buf.length ∧ maxSize < (buf.length : Int) + para.length + 2 then
      trimSpace buf ::
        closedTexts maxSize ov rest
          ((if 0 < ov ∧ ov < ((trimSpace buf).length : Int) then
              getLastNChars (trimSpace buf) ov ++ nl2
            else []) ++ para ++ nl2)
    else closedTexts maxSize ov rest (buf ++ para ++ nl2)

/-- The emitted chunk texts are exactly the closed texts that meet
`MinChunkSize`. -/
theorem pack_fold_texts (title : Str) (m o : Int) :
    ∀ (paras : List Str) (s : PackState),
      (finalClose title (paras.foldl (packStep title m o) s)).map Chunk.Text =
        s.chunks.map Chunk.Text ++
          (closedTexts m o paras s.buffer).filter
            (fun t => decide (MinChunkSize ≤ t.length)) := by
  intro paras
  induction paras with
  | nil =>
    intro s
    rw [List.foldl_nil, finalClose_eq, closedTexts]
    by_cases h : MinChunkSize ≤ (trimSpace s.buffer).length
    · rw [if_pos h, List.filter_cons_of_pos (p := fun t : Str => decide (MinChunkSize ≤ t.length)) (decide_eq_true h)]
      simp
    · rw [if_neg h, List.filter_cons_of_neg (p := fun t : Str => decide (MinChunkSize ≤ t.length)) (by simpa using h)]
      simp
  | cons para rest ih =>
    intro s
    rw [List.foldl_cons, closedTexts]
    by_cases hcl : 0 < s.buffer.length ∧ m < (s.buffer.length : Int) + para.length + 2
    · rw [if_pos hcl]
      have hbuf : (packStep title m o s para).buffer =
          (if 0 < o ∧ o < ((trimSpace s.buffer).length : Int) then
            getLastNChars (trimSpace s.buffer) o ++ nl2
          else []) ++ para ++ nl2 := by
        rw [packStep_eq, if_pos hcl, closeChunk_eq]
      have hch : (packStep title m o s para).chunks =
          if MinChunkSize ≤ (trimSpace s.buffer).length then
            s.chunks ++ [⟨s.chunkIndex, trimSpace s.buffer, title, s.chunkStart,
              s.currentOffset⟩]
          else s.chunks := by
        rw [packStep_eq, if_pos hcl, closeChunk_eq]
        split <;> rfl
      by_cases hmin : MinChunkSize ≤ (trimSpace s.buffer).length
      · rw [ih (packStep title m o s para), hbuf, hch, if_pos hmin,
          List.filter_cons_of_pos (p := fun t : Str => decide (MinChunkSize ≤ t.length)) (decide_eq_true hmin)]
        simp [List.append_assoc]
      · rw [ih (packStep title m o s para), hbuf, hch, if_neg hmin,
          List.filter_cons_of_neg (p := fun t : Str => decide (MinChunkSize ≤ t.length)) (by simpa using hmin)]
    · rw [if_neg hcl]
      have hbuf : (packStep title m o s para).buffer = s.buffer ++ para ++ nl2 := by
        rw [packStep_eq, if_neg hcl]
      have hch : (packStep title m o s para).chunks = s.chunks := by
        rw [packStep_eq, if_neg hcl]
      rw [ih (packStep title m o s para), hbuf, hch]

/-- The first closed text extends the current buffer on the right. -/
theorem closedTexts_head (m o : Int) :
    ∀ (paras : List Str) (buf : Str),
      ∃ ext : Str, (closedTexts m o paras buf).head? = some (trimSpace (buf ++ ext)) := by
  intro paras
  induction paras with
  | nil =>
    intro buf
    refine ⟨[], ?_⟩
    rw [closedTexts]
    simp
  | cons para rest ih =>
    intro buf
    rw [closedTexts]
    split
    · exact ⟨[], by simp⟩
    · rcases ih (buf ++ para ++ nl2) with ⟨ext, hext⟩
      refine ⟨para ++ nl2 ++ ext, ?_⟩
      rw [hext]
      congr 2
      simp [List.append_assoc]

/-- The overlap relation the amended C1 asserts between consecutive
closed texts: when the overlap is positive and the closed text is
strictly longer than it, the seeded overlap text (stripped of leading
whitespace) is a prefix of the next closed text. -/
def overlapSeedRel (o : Int) (t t2 : Str) : Prop :=
  0 < o ∧ o < (t.length : Int) → trimLeft (getLastNChars t o) <+: t2

/-- Every paragraph produced by `splitIntoParagraphs` contains a
non-whitespace character. -/
theorem splitIntoParagraphs_nonws (text : Str) :
    ∀ p ∈ splitIntoParagraphs text, ∃ c ∈ p, goIsSpace c = false := by
  intro p hp
  unfold splitIntoParagraphs at hp
  rcases List.mem_filter.mp hp with ⟨hmem, hne⟩
  rcases List.mem_map.mp hmem with ⟨q, _, rfl⟩
  have hne2 : trimSpace q ≠ [] := by simpa using hne
  rcases hx : trimSpace q with _ | ⟨c, t⟩
  · exact absurd hx hne2
  · refine ⟨c, List.mem_cons_self _ _, ?_⟩
    exact trimSpace_head q c (by rw [hx]; rfl)

/-- Consecutive closed texts satisfy the overlap-seed relation. -/
theorem closedTexts_chain (m o : Int) :
    ∀ (paras : List Str) (buf : Str),
      (∀ p ∈ paras, ∃ c ∈ p, goIsSpace c = false) →
      List.Chain' (overlapSeedRel o) (closedTexts m o paras buf) := by
  intro paras
  induction paras with
  | nil =>
    intro buf _
    rw [closedTexts]
    exact List.chain'_singleton _
  | cons para rest ih =>
    intro buf hp
    rw [closedTexts]
    split
    · rw [List.chain'_cons']
      refine ⟨?_, ih _ (fun p h => hp p (List.mem_cons_of_mem _ h))⟩
      intro b hb
      rcases closedTexts_head m o rest
        ((if 0 < o ∧ o < ((trimSpace buf).length : Int) then
            getLastNChars (trimSpace buf) o ++ nl2
          else []) ++ para ++ nl2) with ⟨ext, hext⟩
      rw [hext] at hb
      simp only [Option.mem_def, Option.some.injEq] at hb
      subst hb
      intro hguard
      rw [if_pos hguard]
      have h2 : ¬ ((trimSpace buf).length : Int) ≤ o := by omega
      have hseed := getLastNChars_has_nonws buf o hguard.1 h2
      rcases hp para (List.mem_cons_self _ _) with ⟨c, hcm, hcw⟩
      have hassoc : ((getLastNChars (trimSpace buf) o ++ nl2) ++ para ++ nl2) ++ ext =
          getLastNChars (trimSpace buf) o ++ (nl2 ++ (para ++ (nl2 ++ ext))) := by
        simp [List.append_assoc]
      rw [hassoc]
      refine trimLeft_prefix_trimSpace_append _ _ hseed ⟨c, ?_, hcw⟩
      exact List.mem_append.mpr (Or.inr (List.mem_append.mpr (Or.inl hcm)))
    · exact ih _ (fun p h => hp p (List.mem_cons_of_mem _ h))

end chunking

/-- The C1 example input: two 120-character paragraphs separated by a
blank line. -/
def C1text : Str := List.replicate 120 'a' ++ chunking.nl2 ++ List.replicate 120 'b'

/-- The C1 example options: size-split at 150 with overlap 20. -/
def C1opts : chunking.Options := { MaxChunkSize := 150, OverlapSize := 20 }

/-- C1 counterexample: with `maxSize = 150` and `overlapSize = 200`,
the section `'a'*120 ++ "\n\n" ++ 'b'*120` is size-split into two
chunks, `'a'*120` and `'b'*120`.  The first chunk's text is shorter
than `overlapSize`, so by the claim the entire previous chunk
(`getLastNChars t 200 = t` here) would become the seed and hence a
prefix of the second chunk — but `'a'*120` is not a prefix of
`'b'*120`: the code seeds no overlap at all unless the previous
chunk's text is strictly longer than `overlapSize`. -/
theorem C1_counterexample :
    ¬ List.Chain' (fun t t2 => chunking.getLastNChars t 200 <+: t2)
      ((chunking.splitLargeSection
        (List.replicate 120 'a' ++ chunking.nl2 ++ List.replicate 120 'b')
        [] ({ MaxChunkSize := 150, OverlapSize := 200 } : chunking.Options)
        0 0).map chunking.Chunk.Text) := by
  intro hc
  have hmap : (chunking.splitLargeSection
      (List.replicate 120 'a' ++ chunking.nl2 ++ List.replicate 120 'b')
      [] ({ MaxChunkSize := 150, OverlapSize := 200 } : chunking.Options)
      0 0).map chunking.Chunk.Text =
      [List.replicate 120 'a', List.replicate 120 'b'] := by decide
  rw [hmap] at hc
  have hr := (List.chain'_cons.mp hc).1
  have hg : chunking.getLastNChars (List.replicate 120 'a') 200 =
      List.replicate 120 'a' := by decide
  rw [hg] at hr
  exact absurd (List.prefix_iff_eq_take.mp hr) (by decide)

/-- C1 (amended): the overlap-seed contract of the size-splitter.  For
a section that actually gets size-split (trimmed text longer than
`maxSize`), provided no closed buffer of the packing loop is discarded
for being under `MinChunkSize`: whenever `overlapSize` is positive and
chunk `i`'s text is strictly longer than `overlapSize`, the trailing
overlap text `getLastNChars (chunk i).Text overlapSize` — stripped of
leading whitespace, which the trimming of the next chunk's buffer
removes — is a prefix of chunk `i+1`'s text.  When chunk `i`'s text is
not strictly longer than `overlapSize` the code seeds nothing at all
(see the counterexample), rather than seeding the entire previous
chunk as the spec claims. -/
theorem C1_overlap_seed (text0 title : Str) (opts : chunking.Options)
    (k : Nat) (off : Int)
    (hbig : ¬ ((chunking.trimSpace text0).length : Int) ≤ opts.MaxChunkSize)
    (hnodrop : ∀ t ∈ chunking.closedTexts opts.MaxChunkSize opts.OverlapSize
        (chunking.splitIntoParagraphs (chunking.trimSpace text0)) [],
      chunking.MinChunkSize ≤ t.length)
    (i : Nat)
    (hi : i + 1 < (chunking.splitLargeSection text0 title opts k off).length)
    (hov : 0 < opts.OverlapSize)
    (hlen : opts.OverlapSize <
      (((chunking.splitLargeSection text0 title opts k off).get
          ⟨i, Nat.lt_of_succ_lt hi⟩).Text.length : Int)) :
    chunking.trimLeft (chunking.getLastNChars
        ((chunking.splitLargeSection text0 title opts k off).get
          ⟨i, Nat.lt_of_succ_lt hi⟩).Text opts.OverlapSize) <+:
      ((chunking.splitLargeSection text0 title opts k off).get ⟨i + 1, hi⟩).Text := by
  have hmap : (chunking.splitLargeSection text0 title opts k off).map
      chunking.Chunk.Text =
      (chunking.closedTexts opts.MaxChunkSize opts.OverlapSize
        (chunking.splitIntoParagraphs (chunking.trimSpace text0)) []).filter
        (fun t : Str => decide (chunking.MinChunkSize ≤ t.length)) := by
    rw [chunking.splitLargeSection_eq, if_neg hbig]
    exact chunking.pack_fold_texts title opts.MaxChunkSize opts.OverlapSize
      (chunking.splitIntoParagraphs (chunking.trimSpace text0)) ⟨[], k, off, off, []⟩
  have hfull : (chunking.splitLargeSection text0 title opts k off).map
      chunking.Chunk.Text =
      chunking.closedTexts opts.MaxChunkSize opts.OverlapSize
        (chunking.splitIntoParagraphs (chunking.trimSpace text0)) [] := by
    rw [hmap]
    exact List.filter_eq_self.mpr (fun t ht => decide_eq_true (hnodrop t ht))
  have hchain : List.Chain' (chunking.overlapSeedRel opts.OverlapSize)
      ((chunking.splitLargeSection text0 title opts k off).map chunking.Chunk.Text) := by
    rw [hfull]
    exact chunking.closedTexts_chain opts.MaxChunkSize opts.OverlapSize
      (chunking.splitIntoParagraphs (chunking.trimSpace text0)) []
      (chunking.splitIntoParagraphs_nonws (chunking.trimSpace text0))
  have hlt : i < ((chunking.splitLargeSection text0 title opts k off).map
      chunking.Chunk.Text).length - 1 := by
    rw [List.length_map]
    omega
  have hidx := List.chain'_iff_get.mp hchain i hlt
  simp only [List.get_eq_getElem, List.getElem_map] at hidx
  simp only [List.get_eq_getElem]
  exact hidx ⟨hov, by simpa using hlen⟩

/-- C1 witness: on the two-paragraph example with overlap 20, the
size-splitter produces two chunks and the trimmed trailing 20
characters of the first chunk are a prefix of the second chunk's
text. -/
theorem C1_overlap_seed_witness :
    ∃ h : 0 + 1 < (chunking.splitLargeSection C1text [] C1opts 0 0).length,
      chunking.trimLeft (chunking.getLastNChars
          ((chunking.splitLargeSection C1text [] C1opts 0 0).get
            ⟨0, Nat.lt_of_succ_lt h⟩).Text C1opts.OverlapSize) <+:
        ((chunking.splitLargeSection C1text [] C1opts 0 0).get ⟨0 + 1, h⟩).Text := by
  have h : 0 + 1 < (chunking.splitLargeSection C1text [] C1opts 0 0).length := by
    decide
  have hlen0 : C1opts.OverlapSize <
      (((chunking.splitLargeSection C1text [] C1opts 0 0).get
        ⟨0, by decide⟩).Text.length : Int) := by decide
  exact ⟨h, C1_overlap_seed C1text [] C1opts 0 0 (by decide) (by decide) 0 h
    (by decide) hlen0⟩
